import Mathlib

/-!
Shallow embedding of the multi-language structural-analysis engine of the
repository (handlers under `src/processors/handlers`, the handler registry,
and the aggregation loop of `src/processors/content_processor.py`),
together with proofs and refutations of the frozen specification claims.

Python strings are modelled as `List Char`; Python `int` as `Int` (or `Nat`
where the source value is provably non-negative); Python dicts of fixed key
sets as Lean structures; the ad-hoc dicts built by the Python handler's
analysis loop as association lists over a `PyVal` value type; operations
that can raise (`list[0]` on an empty list, `None in str`) as `Except`.
Regular-expression matching is embedded by a small backtracking engine over
a pattern AST; every pattern of the source is transliterated node by node.
-/

namespace Spec2Proof

/-- Conversion from a Lean string literal to the `List Char` model of a
Python string. -/
def str2l (s : String) : List Char := s.data

/-- The whitespace characters of Python's `str.strip` / `str.split` and of
the regex class `\s` (ASCII part; exotic Unicode whitespace is not modelled). -/
def pyIsSpace (c : Char) : Bool :=
  c = ' ' || c = '\t' || c = '\n' || c = '\r' || c = '\x0b' || c = '\x0c'

/-- Line-boundary characters of Python's `str.splitlines` (`\r\n` is handled
as a single boundary by `pySplitlinesAux`). -/
def isLineBreak (c : Char) : Bool :=
  c = '\n' || c = '\r' || c = '\x0b' || c = '\x0c' ||
  c = '\x1c' || c = '\x1d' || c = '\x1e' || c = '\x85' || c = '\u2028' || c = '\u2029'

/-- Worker for `replaceCRLF`: the Bool records a pending `'\r'` whose
successor has not been seen yet. -/
def replaceCRLFAux : Bool → List Char → List Char
  | pending, [] => if pending then ['\r'] else []
  | pending, c :: rest =>
    if pending then
      if c = '\n' then '\n' :: replaceCRLFAux false rest
      else if c = '\r' then '\r' :: replaceCRLFAux true rest
      else '\r' :: c :: replaceCRLFAux false rest
    else
      if c = '\r' then replaceCRLFAux true rest
      else c :: replaceCRLFAux false rest

/-- Python `content.replace('\r\n', '\n')` (left-to-right, non-overlapping). -/
def replaceCRLF (s : List Char) : List Char := replaceCRLFAux false s

/-- Worker for `pySplitlines`: `acc` holds the current (reversed) line;
each line-break character is one boundary (the two-character boundary
`\r\n` has already been collapsed to `\n` by `replaceCRLF`). -/
def pySplitlinesAux (acc : List Char) : List Char → List (List Char)
  | [] => if acc.isEmpty then [] else [acc.reverse]
  | c :: rest =>
    if isLineBreak c then acc.reverse :: pySplitlinesAux [] rest
    else pySplitlinesAux (c :: acc) rest

/-- Python `str.splitlines()`: `\r\n` counts as a single boundary (handled
by first collapsing it to `\n`), every other boundary character terminates a
line, and a trailing boundary does not create an extra empty line. -/
def pySplitlines (s : List Char) : List (List Char) :=
  pySplitlinesAux [] (replaceCRLF s)

/-- Python `str.lstrip()`. -/
def pyLstrip (s : List Char) : List Char := s.dropWhile pyIsSpace

/-- Python `str.rstrip()`. -/
def pyRstrip (s : List Char) : List Char := (s.reverse.dropWhile pyIsSpace).reverse

/-- Python `str.strip()`. -/
def pyStrip (s : List Char) : List Char := pyRstrip (pyLstrip s)

/-- Python `sep.join(lines)` with `sep = "\n"`. -/
def joinNL (lines : List (List Char)) : List Char := List.intercalate ['\n'] lines

/-- Python `needle in haystack` (substring containment). -/
def isSubstr (needle : List Char) : List Char → Bool
  | [] => needle.isEmpty
  | c :: rest => needle.isPrefixOf (c :: rest) || isSubstr needle rest

/-- Python `s.find(sub)`: index of the first occurrence, `-1` if absent. -/
def pyFind (sub : List Char) : List Char → Int
  | [] => if sub.isEmpty then 0 else -1
  | c :: rest =>
    if sub.isPrefixOf (c :: rest) then 0
    else
      let r := pyFind sub rest
      if r < 0 then -1 else r + 1

/-- Resolve one Python slice index against a string length (negative indices
count from the end and are clamped at 0; large indices are clamped at the
length). -/
def pySliceIdx (len : Nat) (i : Int) : Nat :=
  if i < 0 then ((len : Int) + i).toNat.min len else i.toNat.min len

/-- Python `s[a:b]`. -/
def pySlice (s : List Char) (a b : Int) : List Char :=
  let a' := pySliceIdx s.length a
  let b' := pySliceIdx s.length b
  (s.take b').drop a'

/-- Python `s.split()` (split on whitespace runs, dropping empty pieces). -/
def pySplitWsAux (acc : List Char) : List Char → List (List Char)
  | [] => if acc.isEmpty then [] else [acc.reverse]
  | c :: rest =>
    if pyIsSpace c then
      if acc.isEmpty then pySplitWsAux [] rest
      else acc.reverse :: pySplitWsAux [] rest
    else pySplitWsAux (c :: acc) rest

def pySplitWs (s : List Char) : List (List Char) := pySplitWsAux [] s

/-- Python `s.split(sep)` for a one-character separator (keeps empty pieces). -/
def pySplitCharAux (sep : Char) (acc : List Char) : List Char → List (List Char)
  | [] => [acc.reverse]
  | c :: rest =>
    if c = sep then acc.reverse :: pySplitCharAux sep [] rest
    else pySplitCharAux sep (c :: acc) rest

def pySplitChar (sep : Char) (s : List Char) : List (List Char) :=
  pySplitCharAux sep [] s

/-- Python string `<` (lexicographic by code point). -/
def pyStrLt : List Char → List Char → Bool
  | [], [] => false
  | [], _ :: _ => true
  | _ :: _, [] => false
  | a :: x, b :: y => if a.val < b.val then true else if b.val < a.val then false else pyStrLt x y

/-- Insertion into a lexicographically sorted list, dropping duplicates. -/
def sortedInsert (s : List Char) : List (List Char) → List (List Char)
  | [] => [s]
  | t :: rest =>
    if pyStrLt s t then s :: t :: rest
    else if s = t then t :: rest
    else t :: sortedInsert s rest

/-- Python `sorted(list(set(xs)))` for a list of strings. -/
def sortedDedup (xs : List (List Char)) : List (List Char) :=
  xs.foldl (fun acc s => sortedInsert s acc) []

/-- Worker for `countSub`: `skip` characters still to pass over after a
match was counted. -/
def countSubAux (sub : List Char) : Nat → List Char → Nat
  | _, [] => 0
  | skip + 1, _ :: rest => countSubAux sub skip rest
  | 0, c :: rest =>
    if sub.isPrefixOf (c :: rest) then 1 + countSubAux sub (sub.length - 1) rest
    else countSubAux sub 0 rest

/-- Count of non-overlapping occurrences of a substring, Python `s.count(sub)`
for non-empty `sub`. -/
def countSub (sub : List Char) (s : List Char) : Nat := countSubAux sub 0 s

/-- UTF-8 byte length, Python `len(s.encode('utf-8'))`. -/
def utf8Len (s : List Char) : Nat := (s.map Char.utf8Size).sum

/-! ### A small backtracking regex engine

Just enough of Python `re` for the patterns appearing in the source:
quantifiers are only ever applied to single-character classes there (so
`starG`/`starL`/`plusG`/`plusL` take a class, not a sub-pattern), groups are
never repeated, and the only look-around is one negative lookahead. Results
are produced in Python's backtracking priority order; the head of the list
is the match `re` would return. -/

/-- The class `\w` (ASCII approximation of Python's word characters). -/
def isWordChar (c : Char) : Bool := c.isAlphanum || c = '_'

inductive Rx where
  | eps
  /-- one character of a class, e.g. `[^}]`, `\w`, `.` -/
  | cls (p : Char → Bool)
  /-- a literal sequence, e.g. `function` -/
  | lit (cs : List Char)
  | cat (a b : Rx)
  | alt (a b : Rx)
  /-- greedy `(?:...)?` -/
  | opt (a : Rx)
  /-- greedy `p*` over a class -/
  | starG (p : Char → Bool)
  /-- lazy `p*?` over a class -/
  | starL (p : Char → Bool)
  /-- greedy `p+` over a class -/
  | plusG (p : Char → Bool)
  /-- lazy `p+?` over a class -/
  | plusL (p : Char → Bool)
  /-- capturing group `(...)`, 1-based index -/
  | grp (i : Nat) (a : Rx)
  /-- word boundary `\b` -/
  | wordB
  /-- negative lookahead `(?!...)` -/
  | nla (a : Rx)

/-- Captured groups of one match. -/
abbrev Caps := List (Nat × List Char)

/-- Previous character after consuming `k` characters of `s` (for `\b`). -/
def prevAfter (p : Option Char) (s : List Char) (k : Nat) : Option Char :=
  if k = 0 then p else (s.take k).getLast?

/-- All ways (in priority order) to consume `0..` characters of the maximal
run of `p`-characters, longest first. -/
def starChoicesG (p : Char → Bool) (pr : Option Char) (s : List Char) :
    List (Option Char × List Char × Caps) :=
  let n := (s.takeWhile p).length
  (List.range (n + 1)).map fun j =>
    let k := n - j
    (prevAfter pr s k, s.drop k, [])

/-- Same choices, shortest first (lazy). -/
def starChoicesL (p : Char → Bool) (pr : Option Char) (s : List Char) :
    List (Option Char × List Char × Caps) :=
  let n := (s.takeWhile p).length
  (List.range (n + 1)).map fun k => (prevAfter pr s k, s.drop k, [])

/-- Backtracking matcher. A result `(pr', s', g)` is one way for the pattern
to match a prefix of `s`, leaving `s'` and captures `g`; `pr`/`pr'` is the
character just before the current position (for `\b`). -/
def matchRx : Rx → Option Char → List Char → List (Option Char × List Char × Caps)
  | .eps, pr, s => [(pr, s, [])]
  | .cls _, _, [] => []
  | .cls p, _, c :: rest => if p c then [(some c, rest, [])] else []
  | .lit cs, pr, s =>
    if cs.isPrefixOf s then [(if cs.isEmpty then pr else cs.getLast?, s.drop cs.length, [])]
    else []
  | .cat a b, pr, s =>
    (matchRx a pr s).flatMap fun (pr', s', g) =>
      (matchRx b pr' s').map fun (pr'', s'', g') => (pr'', s'', g ++ g')
  | .alt a b, pr, s => matchRx a pr s ++ matchRx b pr s
  | .opt a, pr, s => matchRx a pr s ++ [(pr, s, [])]
  | .starG p, pr, s => starChoicesG p pr s
  | .starL p, pr, s => starChoicesL p pr s
  | .plusG p, pr, s => (starChoicesG p pr s).dropLast
  | .plusL p, pr, s => (starChoicesL p pr s).drop 1
  | .grp i a, pr, s =>
    (matchRx a pr s).map fun (pr', s', g) =>
      (pr', s', (i, s.take (s.length - s'.length)) :: g)
  | .wordB, pr, s =>
    if (pr.elim false isWordChar) != (s.head?.elim false isWordChar) then [(pr, s, [])]
    else []
  | .nla a, pr, s => if (matchRx a pr s).isEmpty then [(pr, s, [])] else []

/-- One match of `re.finditer`: start offset, matched length, matched text
(`group(0)`), captures. -/
structure MatchRes where
  start : Nat
  len : Nat
  whole : List Char
  caps : Caps
  deriving Repr

/-- The `m.group(i)` for `i ≥ 1`. -/
def MatchRes.grp? (m : MatchRes) (i : Nat) : Option (List Char) :=
  (m.caps.find? (fun kv => kv.1 = i)).map Prod.snd

/-- Scanning worker for `re.finditer`: at each position try the pattern,
on success continue past the match, otherwise advance one character. `fuel`
bounds the number of steps (`length + 1` always suffices). -/
def findIterAux (r : Rx) : Nat → Option Char → List Char → Nat → List MatchRes
  | 0, _, _, _ => []
  | fuel + 1, pr, s, pos =>
    match matchRx r pr s with
    | (pr', s', g) :: _ =>
      let len := s.length - s'.length
      let m : MatchRes := ⟨pos, len, s.take len, g⟩
      if len = 0 then
        match s with
        | [] => [m]
        | c :: rest => m :: findIterAux r fuel (some c) rest (pos + 1)
      else m :: findIterAux r fuel pr' s' (pos + len)
    | [] =>
      match s with
      | [] => []
      | c :: rest => findIterAux r fuel (some c) rest (pos + 1)

/-- Python `re.finditer(pattern, s)` (as a list). -/
def reFinditer (r : Rx) (s : List Char) : List MatchRes :=
  findIterAux r (s.length + 1) none s 0

/-- The `len(re.findall(pattern, s))` (the count is the same with or without
groups in the pattern). -/
def reFindallCount (r : Rx) (s : List Char) : Nat := (reFinditer r s).length

/-- Python `re.search(pattern, s)` as a Bool. -/
def reSearchB (r : Rx) (s : List Char) : Bool := !(reFinditer r s).isEmpty

/-- Delete the given (sorted, non-overlapping) spans from `s`; `off` is the
original-string offset of the head of `s`. -/
def deleteSpans (s : List Char) (off : Nat) : List (Nat × Nat) → List Char
  | [] => s
  | (st, len) :: rest =>
    s.take (st - off) ++ deleteSpans (s.drop (st - off + len)) (st + len) rest

/-- Python `re.sub(pattern, '', s)`. -/
def reSubEmpty (r : Rx) (s : List Char) : List Char :=
  deleteSpans s 0 ((reFinditer r s).map fun m => (m.start, m.len))

/-- Concatenation of a pattern list (notation helper). -/
def rcat (l : List Rx) : Rx := l.foldr .cat .eps

/-- A single literal character. -/
def rc (c : Char) : Rx := .lit [c]

/-- A literal string. -/
def rs (s : String) : Rx := .lit s.data

/-- The class `\s`. -/
def rxSp : Char → Bool := pyIsSpace

/-- The class `.` (anything but a newline). -/
def rxAny : Char → Bool := fun c => c ≠ '\n'

/-- The class `[\s\S]` (anything). -/
def rxAll : Char → Bool := fun _ => true

/-! ### `base_handler.py`: `CodeMetrics` and `BaseCodeHandler` -/

/-- The `CodeMetrics` dataclass.  All counters are Python ints; the
`maintainability_index` is the constant float `100.0` in every code path of
the handlers, modelled as the integer 100.  `Keys.metrics_result` builds a
dict with exactly these six keys, so the same structure also models the
`metrics` sub-dict of an analysis result. -/
structure CodeMetrics where
  lines_of_code : Int := 0
  comment_lines : Int := 0
  blank_lines : Int := 0
  complexity : Int := 0
  maintainability_index : Int := 100
  max_depth : Int := 0
  deriving Repr, DecidableEq

/-- The comment-marker fields of a handler (`single_line_comment`,
`multi_line_comment_start/end`; the latter two are `None` for
`TextHandler`). -/
structure CommentMarkers where
  single : List Char
  multiStart : Option (List Char)
  multiEnd : Option (List Char)

/-- Python `marker in line` where `marker` may be `None`
(raises `TypeError` in that case, as in `TextHandler.count_lines`). -/
def pyInOpt : Option (List Char) → List Char → Except (List Char) Bool
  | some sub, s => .ok (isSubstr sub s)
  | none, _ =>
    .error (str2l "'in <string>' requires string as left operand, not NoneType")

/-- Loop of `BaseCodeHandler._count_comment_lines`. -/
def countCommentLinesAux (mk : CommentMarkers) :
    List (List Char) → Bool → Nat → Except (List Char) Nat
  | [], _, cnt => .ok cnt
  | line :: rest, inML, cnt =>
    let stripped := pyStrip line
    if stripped.isEmpty then countCommentLinesAux mk rest inML cnt
    else
      match pyInOpt mk.multiStart line with
      | .error e => .error e
      | .ok hasStart =>
        if hasStart then countCommentLinesAux mk rest true (cnt + 1)
        else if inML then
          match pyInOpt mk.multiEnd line with
          | .error e => .error e
          | .ok hasEnd => countCommentLinesAux mk rest (!hasEnd) (cnt + 1)
        else if mk.single.isPrefixOf stripped then
          countCommentLinesAux mk rest inML (cnt + 1)
        else countCommentLinesAux mk rest inML cnt

/-- The `BaseCodeHandler._count_comment_lines`. -/
def countCommentLines (mk : CommentMarkers) (content : List Char) :
    Except (List Char) Nat :=
  countCommentLinesAux mk (pySplitlines content) false 0

/-- The `BaseCodeHandler.count_lines`. -/
def countLines (mk : CommentMarkers) (content : List Char) :
    Except (List Char) CodeMetrics :=
  let lines := pySplitlines content
  match countCommentLines mk content with
  | .error e => .error e
  | .ok cc =>
    .ok { lines_of_code := (lines.length : Int),
          blank_lines := ((lines.filter fun l => (pyStrip l).isEmpty).length : Int),
          comment_lines := (cc : Int) }

/-- The `line.count(c)` for a single character. -/
def countChar (c : Char) (line : List Char) : Nat := (line.filter (· = c)).length

/-- Pattern `\b(if|else|for|while|case|switch|catch)\b`. -/
def rxBaseCtrl : Rx :=
  rcat [.wordB,
        .grp 1 (.alt (rs "if") (.alt (rs "else") (.alt (rs "for") (.alt (rs "while")
          (.alt (rs "case") (.alt (rs "switch") (rs "catch"))))))),
        .wordB]

/-- Pattern `\b(&&|\|\|)\b`. -/
def rxBaseBool : Rx := rcat [.wordB, .grp 1 (.alt (rs "&&") (rs "||")), .wordB]

/-- Pattern `\?.*:(?![^{]*})`. -/
def rxBaseTernary : Rx :=
  rcat [rc '?', .starG rxAny, rc ':', .nla (rcat [.starG (fun c => c ≠ '{'), rc '}'])]

/-- The `BaseCodeHandler.calculate_complexity`. -/
def baseCalculateComplexity (content : List Char) : Nat :=
  let control_structures := reFindallCount rxBaseCtrl content
  let boolean_ops := reFindallCount rxBaseBool content
  let ternary_ops := reFindallCount rxBaseTernary content
  max 1 (control_structures + boolean_ops + ternary_ops)

/-- The `BaseCodeHandler.calculate_max_depth`: running (unclamped) brace counter
per line, result is the maximum value it reaches (an `Int`, since the
counter may go negative). -/
def baseCalculateMaxDepth (content : List Char) : Int :=
  let step := fun (st : Int × Int) (line : List Char) =>
    let current := st.2 + (countChar '{' line : Int) - (countChar '}' line : Int)
    (max st.1 current, current)
  ((pySplitlines content).foldl step (0, 0)).1

/-! ### `python_handler.py`: `PythonHandler` -/

/-- The `PythonHandler` markers: `single_line_comment = '#'`, the multi-line
markers are inherited unchanged from `BaseCodeHandler` (`'/*'`, `'*/'`). -/
def pyMarkers : CommentMarkers :=
  { single := str2l "#", multiStart := some (str2l "/*"), multiEnd := some (str2l "*/") }

/-- The `PythonHandler._calculate_complexity`: 1 plus, per line and per keyword,
one for each keyword the stripped line starts with (keyword followed by a
space). -/
def pythonCalculateComplexity (content : List Char) : Nat :=
  let keywords := [str2l "if", str2l "elif", str2l "for", str2l "while",
                   str2l "except", str2l "with", str2l "assert"]
  (pySplitlines content).foldl
    (fun acc line =>
      let stripped := pyStrip line
      acc + (keywords.filter fun kw => (kw ++ [' ']).isPrefixOf stripped).length)
    1

/-- The `PythonHandler._calculate_depth`: maximum of `leading_spaces / 4` per line. -/
def pythonCalculateDepth (content : List Char) : Nat :=
  (pySplitlines content).foldl
    (fun md line => max md ((line.length - (pyLstrip line).length) / 4)) 0

/-- The `PythonHandler.clean_content`: keep the original lines whose stripped
form is non-empty and does not start with `#`. -/
def pythonCleanContent (content : List Char) : List Char :=
  joinNL ((pySplitlines content).filter fun line =>
    let stripped := pyStrip line
    !stripped.isEmpty && !(['#'].isPrefixOf stripped))

/-- Values of the ad-hoc Python dicts built by `PythonHandler.analyze_code`
(`{'name': ..., 'is_async': ...}`, `{'name': ..., 'methods': [...],
'bases': []}`). -/
inductive PyVal where
  | str : List Char → PyVal
  | bool : Bool → PyVal
  | vlist : List PyVal → PyVal
  | vdict : List (List Char × PyVal) → PyVal
  deriving Repr

/-- An ad-hoc Python dict. -/
abbrev PyDict := List (List Char × PyVal)

/-- The `d.get(key)` on an ad-hoc dict. -/
def pyLookup (k : List Char) (d : PyDict) : Option PyVal :=
  (d.find? fun kv => kv.1 = k).map Prod.snd

/-- The dict `{'name': name, 'is_async': is_async}` of the Python handler's
function/method entries (note: no argument list is recorded). -/
def mkPyFn (name : List Char) (isAsync : Bool) : PyDict :=
  [(str2l "name", .str name), (str2l "is_async", .bool isAsync)]

/-- The dict `{'name': ..., 'methods': [...], 'bases': []}` of the Python
handler's class entries. -/
def mkPyClass (name : List Char) (methods : List PyDict) : PyDict :=
  [(str2l "name", .str name), (str2l "methods", .vlist (methods.map .vdict)),
   (str2l "bases", .vlist [])]

/-- Python truthiness of the `current_class` variable (`None` or a string). -/
def pyTruthyStr (o : Option (List Char)) : Bool := o.elim false (fun s => !s.isEmpty)

/-- State of the line loop in `PythonHandler.analyze_code`. -/
structure PyAnState where
  imports : List (List Char) := []
  functions : List PyDict := []
  classes : List PyDict := []
  currentClass : Option (List Char) := none
  currentMethods : List PyDict := []

/-- The line loop of `PythonHandler.analyze_code` (`Except` models the
`IndexError` that `split()[0]` would raise on an empty split). -/
def pythonAnalyzeLoop : List (List Char) → PyAnState → Except (List Char) PyAnState
  | [], st => .ok st
  | line :: rest, st =>
    let stripped := pyStrip line
    if stripped.isEmpty || ['#'].isPrefixOf stripped then pythonAnalyzeLoop rest st
    else if (str2l "import ").isPrefixOf stripped then
      match pySplitWs (stripped.drop 7) with
      | [] => .error (str2l "list index out of range")
      | piece :: _ =>
        pythonAnalyzeLoop rest { st with imports := st.imports ++ [piece.takeWhile (· ≠ '.')] }
    else if (str2l "from ").isPrefixOf stripped then
      match pySplitWs stripped with
      | _ :: p1 :: _ =>
        pythonAnalyzeLoop rest { st with imports := st.imports ++ [p1.takeWhile (· ≠ '.')] }
      | _ => pythonAnalyzeLoop rest st
    else if (str2l "def ").isPrefixOf stripped then
      let name := (stripped.drop 4).takeWhile (· ≠ '(')
      let isAsync := isSubstr (str2l "async") (pySlice line 0 (pyFind (str2l "def") line))
      if pyTruthyStr st.currentClass then
        pythonAnalyzeLoop rest { st with currentMethods := st.currentMethods ++ [mkPyFn name isAsync] }
      else
        pythonAnalyzeLoop rest { st with functions := st.functions ++ [mkPyFn name isAsync] }
    else if (str2l "class ").isPrefixOf stripped then
      let newName := pyStrip (((stripped.drop 6).takeWhile (· ≠ '(')).takeWhile (· ≠ ':'))
      if pyTruthyStr st.currentClass then
        pythonAnalyzeLoop rest
          { st with classes := st.classes ++ [mkPyClass (st.currentClass.getD []) st.currentMethods],
                    currentClass := some newName, currentMethods := [] }
      else
        pythonAnalyzeLoop rest { st with currentClass := some newName, currentMethods := [] }
    else pythonAnalyzeLoop rest st

/-- The analysis dict returned by `PythonHandler.analyze_code`: on success
the keys `success/metrics/imports/functions/classes` are present, on failure
the keys `success/error`; absent keys are `none`. -/
structure PyAnalysisDict where
  success : Bool
  metrics : Option CodeMetrics
  imports : Option (List (List Char))
  functions : Option (List PyDict)
  classes : Option (List PyDict)
  error : Option (List Char)

/-- Body of the `try:` block of `PythonHandler.analyze_code`. -/
def pythonAnalyzeE (content : List Char) :
    Except (List Char) (CodeMetrics × List (List Char) × List PyDict × List PyDict) :=
  let cleaned := pythonCleanContent content
  match countLines pyMarkers content with
  | .error e => .error e
  | .ok m0 =>
    let metrics := { m0 with complexity := (pythonCalculateComplexity cleaned : Int),
                             max_depth := (pythonCalculateDepth cleaned : Int) }
    match pythonAnalyzeLoop (pySplitlines cleaned) {} with
    | .error e => .error e
    | .ok st =>
      let classes :=
        if pyTruthyStr st.currentClass then
          st.classes ++ [mkPyClass (st.currentClass.getD []) st.currentMethods]
        else st.classes
      .ok (metrics, sortedDedup st.imports, st.functions, classes)

/-- The `PythonHandler.analyze_code`: the `try/except` returns either a success
dict or `{'success': False, 'error': str(e)}`. -/
def pythonAnalyze (content : List Char) : PyAnalysisDict :=
  match pythonAnalyzeE content with
  | .ok (m, imps, fns, cls) =>
    { success := true, metrics := some m, imports := some imps,
      functions := some fns, classes := some cls, error := none }
  | .error e =>
    { success := false, metrics := none, imports := none,
      functions := none, classes := none, error := some e }

/-! ### `javascript_handler.py`: `JavaScriptHandler` -/

/-- The `JavaScriptHandler` markers. -/
def jsMarkers : CommentMarkers :=
  { single := str2l "//", multiStart := some (str2l "/*"), multiEnd := some (str2l "*/") }

/-- State machine implementing `re.sub(r'//.*$', '', content, flags=re.MULTILINE)`
(`.` matches anything but `'\n'`, so from each `//` everything up to the next
`'\n'` or the end of the string is dropped).  The Bool is true while dropping. -/
def jsRemoveLineCommentsAux : Bool → List Char → List Char
  | _, [] => []
  | true, '\n' :: rest => '\n' :: jsRemoveLineCommentsAux false rest
  | true, _ :: rest => jsRemoveLineCommentsAux true rest
  | false, '/' :: '/' :: rest => jsRemoveLineCommentsAux true rest
  | false, c :: rest => c :: jsRemoveLineCommentsAux false rest

def jsRemoveLineComments (s : List Char) : List Char := jsRemoveLineCommentsAux false s

/-- Whether the two-character string `ab` occurs in the list. -/
def hasPair (a b : Char) : List Char → Bool
  | x :: y :: rest => (x = a && y = b) || hasPair a b (y :: rest)
  | _ => false

/-- State machine implementing `re.sub(r'/\*[\s\S]*?\*/', '', content)`:
from each `/*` that has a later `*/`, drop lazily up to and including the
first `*/`; a `/*` with no later `*/` matches nothing (and then no later
`/*` can match either, so the remainder is emitted unchanged).  The Bool is
true while inside a comment being dropped. -/
def jsRemoveBlockCommentsAux : Bool → List Char → List Char
  | _, [] => []
  | false, '/' :: '*' :: rest =>
    if hasPair '*' '/' rest then jsRemoveBlockCommentsAux true rest
    else '/' :: '*' :: rest
  | true, '*' :: '/' :: rest => jsRemoveBlockCommentsAux false rest
  | true, _ :: rest => jsRemoveBlockCommentsAux true rest
  | false, c :: rest => c :: jsRemoveBlockCommentsAux false rest

def jsRemoveBlockComments (s : List Char) : List Char := jsRemoveBlockCommentsAux false s

/-- The final lines pass of `JavaScriptHandler.clean_content`:
`lines = [line.strip() for line in content.splitlines()]` then join the
non-empty ones with `'\n'`. -/
def jsNormalizeLines (s : List Char) : List Char :=
  joinNL (((pySplitlines s).map pyStrip).filter fun l => !l.isEmpty)

/-- The `JavaScriptHandler.clean_content`. -/
def jsCleanContent (content : List Char) : List Char :=
  jsNormalizeLines (jsRemoveBlockComments (jsRemoveLineComments content))

/-- The class `['\"]`. -/
def rxQuote : Char → Bool := fun c => c = '\'' || c = '"'

/-- The class `[@\w\-\/.]`. -/
def rxImpChar : Char → Bool := fun c => isWordChar c || c = '@' || c = '-' || c = '/' || c = '.'

/-- The class `[\w$]`. -/
def rxWD : Char → Bool := fun c => isWordChar c || c = '$'

/-- The class `[\w$.]`. -/
def rxWDdot : Char → Bool := fun c => rxWD c || c = '.'

/-- The `import\s+(?:{[^}]+}|\w+)\s+from\s+['\"]([@\w\-\/.]+)['\"]` -/
def rxJsImport1 : Rx :=
  rcat [rs "import", .plusG rxSp,
        .alt (rcat [rc '{', .plusG (fun c => c ≠ '}'), rc '}']) (.plusG isWordChar),
        .plusG rxSp, rs "from", .plusG rxSp,
        .cls rxQuote, .grp 1 (.plusG rxImpChar), .cls rxQuote]

/-- The `import\s+['\"]([@\w\-\/.]+)['\"]` -/
def rxJsImport2 : Rx :=
  rcat [rs "import", .plusG rxSp, .cls rxQuote, .grp 1 (.plusG rxImpChar), .cls rxQuote]

/-- The `require\s*\(\s*['\"]([@\w\-\/.]+)['\"]\s*\)` -/
def rxJsImport3 : Rx :=
  rcat [rs "require", .starG rxSp, rc '(', .starG rxSp,
        .cls rxQuote, .grp 1 (.plusG rxImpChar), .cls rxQuote, .starG rxSp, rc ')']

/-- The `import\s*\(\s*['\"]([@\w\-\/.]+)['\"]\s*\)` -/
def rxJsImport4 : Rx :=
  rcat [rs "import", .starG rxSp, rc '(', .starG rxSp,
        .cls rxQuote, .grp 1 (.plusG rxImpChar), .cls rxQuote, .starG rxSp, rc ')']

/-- The `JavaScriptHandler._collect_imports`. -/
def jsCollectImports (content : List Char) : List (List Char) :=
  sortedDedup ([rxJsImport1, rxJsImport2, rxJsImport3, rxJsImport4].flatMap fun p =>
    (reFinditer p content).filterMap fun m => m.grp? 1)

/-- The `export\s+(?:default\s+)?(?:function|class|const|let|var)\s+(\w+)` -/
def rxJsExport1 : Rx :=
  rcat [rs "export", .plusG rxSp, .opt (rcat [rs "default", .plusG rxSp]),
        .alt (rs "function") (.alt (rs "class") (.alt (rs "const") (.alt (rs "let") (rs "var")))),
        .plusG rxSp, .grp 1 (.plusG isWordChar)]

/-- The `export\s+default\s+(\w+)` -/
def rxJsExport2 : Rx :=
  rcat [rs "export", .plusG rxSp, rs "default", .plusG rxSp, .grp 1 (.plusG isWordChar)]

/-- The `export\s+{\s*([^}]+)\s*}` -/
def rxJsExport3 : Rx :=
  rcat [rs "export", .plusG rxSp, rc '{', .starG rxSp,
        .grp 1 (.plusG (fun c => c ≠ '}')), .starG rxSp, rc '}']

/-- The `module\.exports\s*=\s*(\w+)` -/
def rxJsExport4 : Rx :=
  rcat [rs "module.exports", .starG rxSp, rc '=', .starG rxSp, .grp 1 (.plusG isWordChar)]

/-- The `exports\.(\w+)\s*=` -/
def rxJsExport5 : Rx :=
  rcat [rs "exports.", .grp 1 (.plusG isWordChar), .starG rxSp, rc '=']

/-- The `\s+as\s+\w+` (the sub-pattern stripped from export items). -/
def rxJsAsClause : Rx :=
  rcat [.plusG rxSp, rs "as", .plusG rxSp, .plusG isWordChar]

/-- The `JavaScriptHandler._collect_exports`. -/
def jsCollectExports (content : List Char) : List (List Char) :=
  sortedDedup
    ([rxJsExport1, rxJsExport2, rxJsExport3, rxJsExport4, rxJsExport5].flatMap fun p =>
      (reFinditer p content).flatMap fun m =>
        match m.grp? 1 with
        | none => []
        | some g =>
          (pySplitChar ',' g).filterMap fun item =>
            let cleanName := reSubEmpty rxJsAsClause (pyStrip item)
            if cleanName.isEmpty then none else some cleanName)

/-- The `function\s+([\w$]+)\s*\((.*?)\)` -/
def rxJsFun1 : Rx :=
  rcat [rs "function", .plusG rxSp, .grp 1 (.plusG rxWD), .starG rxSp,
        rc '(', .grp 2 (.starL rxAny), rc ')']

/-- The `(?:const|let|var)\s+([\w$]+)\s*=\s*(?:async\s*)?(?:\((.*?)\)|[\w$]+)\s*=>` -/
def rxJsFun2 : Rx :=
  rcat [.alt (rs "const") (.alt (rs "let") (rs "var")), .plusG rxSp,
        .grp 1 (.plusG rxWD), .starG rxSp, rc '=', .starG rxSp,
        .opt (rcat [rs "async", .starG rxSp]),
        .alt (rcat [rc '(', .grp 2 (.starL rxAny), rc ')']) (.plusG rxWD),
        .starG rxSp, rs "=>"]

/-- The `(?:async\s+)?([\w$]+)\s*\((.*?)\)\s*{` -/
def rxJsFun3 : Rx :=
  rcat [.opt (rcat [rs "async", .plusG rxSp]), .grp 1 (.plusG rxWD), .starG rxSp,
        rc '(', .grp 2 (.starL rxAny), rc ')', .starG rxSp, rc '{']

/-- The `JavaScriptHandler._parse_parameters`. -/
def jsParseParameters (ps : List Char) : List (List Char) :=
  if (pyStrip ps).isEmpty then []
  else
    let fin := ps.foldl
      (fun (st : List (List Char) × List Char × Int) c =>
        let (params, current, nesting) := st
        if c = '{' ∨ c = '(' ∨ c = '[' then (params, current ++ [c], nesting + 1)
        else if c = '}' ∨ c = ')' ∨ c = ']' then (params, current ++ [c], nesting - 1)
        else if c = ',' ∧ nesting = 0 then (params ++ [pyStrip current], [], nesting)
        else (params, current ++ [c], nesting))
      ([], [], 0)
    let params := if fin.2.1.isEmpty then fin.1 else fin.1 ++ [pyStrip fin.2.1]
    params.filterMap fun p =>
      let base := pyStrip ((p.takeWhile (· ≠ '=')).takeWhile (· ≠ ':'))
      if base.isEmpty then none else some base

/-- The `'async' in content[match.start()-5:match.start()]`. -/
def asyncBefore (content : List Char) (start : Nat) : Bool :=
  isSubstr (str2l "async") (pySlice content ((start : Int) - 5) (start : Int))

/-- The `Keys.function_info` (a dict with the fixed keys
`name/arguments/decorators/is_async`). -/
structure FuncInfo where
  name : List Char
  arguments : List (List Char)
  decorators : List (List Char)
  is_async : Bool
  deriving Repr, DecidableEq

/-- The `JavaScriptHandler.collect_functions` (no keyword-exclusion check). -/
def jsCollectFunctions (content : List Char) : List FuncInfo :=
  [rxJsFun1, rxJsFun2, rxJsFun3].flatMap fun p =>
    (reFinditer p content).map fun m =>
      { name := (m.grp? 1).getD [],
        arguments := jsParseParameters ((m.grp? 2).getD []),
        decorators := [],
        is_async := asyncBefore content m.start }

/-- The `(?:async\s+)?(?:static\s+)?([\w$]+)\s*\((.*?)\)\s*{[^}]*}` -/
def rxJsMethod : Rx :=
  rcat [.opt (rcat [rs "async", .plusG rxSp]), .opt (rcat [rs "static", .plusG rxSp]),
        .grp 1 (.plusG rxWD), .starG rxSp, rc '(', .grp 2 (.starL rxAny), rc ')',
        .starG rxSp, rc '{', .starG (fun c => c ≠ '}'), rc '}']

/-- The control-structure keywords excluded by `_collect_methods`. -/
def jsKeywordNames : List (List Char) :=
  [str2l "if", str2l "for", str2l "while", str2l "switch"]

/-- The `JavaScriptHandler._collect_methods`: skips a match whose captured name
is one of `('if', 'for', 'while', 'switch')`. -/
def jsCollectMethods (classBody : List Char) : List FuncInfo :=
  (reFinditer rxJsMethod classBody).filterMap fun m =>
    let name := (m.grp? 1).getD []
    if name ∈ jsKeywordNames then none
    else some { name := name,
                arguments := jsParseParameters ((m.grp? 2).getD []),
                decorators := [],
                is_async := asyncBefore classBody m.start }

/-- The `class\s+([\w$]+)(?:\s+extends\s+([\w$.]+))?\s*{([^}]+)}` -/
def rxJsClass : Rx :=
  rcat [rs "class", .plusG rxSp, .grp 1 (.plusG rxWD),
        .opt (rcat [.plusG rxSp, rs "extends", .plusG rxSp, .grp 2 (.plusG rxWDdot)]),
        .starG rxSp, rc '{', .grp 3 (.plusG (fun c => c ≠ '}')), rc '}']

/-- The `Keys.class_info` (fixed keys `name/methods/base_classes`). -/
structure ClassInfo where
  name : List Char
  methods : List FuncInfo
  base_classes : List (List Char)
  deriving Repr, DecidableEq

/-- The `JavaScriptHandler.collect_classes`. -/
def jsCollectClasses (content : List Char) : List ClassInfo :=
  (reFinditer rxJsClass content).map fun m =>
    { name := (m.grp? 1).getD [],
      methods := jsCollectMethods ((m.grp? 3).getD []),
      base_classes := match m.grp? 2 with | some b => [b] | none => [] }

/-- The `import\s+.*?['\"](react|react-dom)['\"]` -/
def rxReact1 : Rx :=
  rcat [rs "import", .plusG rxSp, .starL rxAny, .cls rxQuote,
        .grp 1 (.alt (rs "react") (rs "react-dom")), .cls rxQuote]

/-- The `import\s+{[^}]*Component[^}]*}\s+from\s+['\"]react['\"]` -/
def rxReact2 : Rx :=
  rcat [rs "import", .plusG rxSp, rc '{', .starG (fun c => c ≠ '}'), rs "Component",
        .starG (fun c => c ≠ '}'), rc '}', .plusG rxSp, rs "from", .plusG rxSp,
        .cls rxQuote, rs "react", .cls rxQuote]

/-- The `extends\s+React\.Component` -/
def rxReact3 : Rx := rcat [rs "extends", .plusG rxSp, rs "React.Component"]

/-- The `extends\s+Component` -/
def rxReact4 : Rx := rcat [rs "extends", .plusG rxSp, rs "Component"]

/-- The `use[A-Z]\w+\(` -/
def rxReact5 : Rx := rcat [rs "use", .cls Char.isUpper, .plusG isWordChar, rc '(']

/-- The `<[\w]+\s+[^>]*/>` -/
def rxReact6 : Rx :=
  rcat [rc '<', .plusG isWordChar, .plusG rxSp, .starG (fun c => c ≠ '>'), rs "/>"]

/-- The `React\.` -/
def rxReact7 : Rx := rs "React."

/-- The `JavaScriptHandler._is_react_code`. -/
def jsIsReactCode (content : List Char) : Bool :=
  [rxReact1, rxReact2, rxReact3, rxReact4, rxReact5, rxReact6, rxReact7].any
    fun p => reSearchB p content

/-- The complexity patterns of `JavaScriptHandler._calculate_complexity`,
in source order. -/
def rxJsComplexityPats : List Rx :=
  [rcat [.wordB, rs "if", .starG rxSp, rc '('],
   rcat [.wordB, rs "else", .plusG rxSp, rs "if", .wordB],
   rcat [.wordB, rs "for", .starG rxSp, rc '('],
   rcat [.wordB, rs "while", .starG rxSp, rc '('],
   rcat [.wordB, rs "switch", .starG rxSp, rc '('],
   rcat [.wordB, rs "catch", .starG rxSp, rc '('],
   rcat [rc '?', .starG rxSp, .plusG (fun c => c ≠ ':'), .starG rxSp, rc ':',
         .starG rxSp, .plusG (fun c => c ≠ ';')],
   rs "&&",
   rs "||",
   rs ".map(",
   rs ".filter(",
   rs ".reduce(",
   rcat [.wordB, rs "useEffect", rc '('],
   rcat [.wordB, rs "useCallback", rc '('],
   rcat [.wordB, rs "useMemo", rc '('],
   rcat [.wordB, rs "async", .wordB],
   rcat [.wordB, rs "await", .wordB],
   rcat [rc '{', .starL rxSp, .plusL rxAny, .starL rxSp, rc '?'],
   rcat [rc '{', .starL rxSp, rs "!!"]]

/-- The `JavaScriptHandler._calculate_complexity`. -/
def jsCalculateComplexity (content : List Char) : Nat :=
  max 1 (rxJsComplexityPats.foldl (fun acc p => acc + reFindallCount p content) 1)

/-- The `<[A-Z]\w+` -/
def rxJsxOpen : Rx := rcat [rc '<', .cls Char.isUpper, .plusG isWordChar]

/-- The `</[A-Z]\w+` -/
def rxJsxClose : Rx := rcat [rs "</", .cls Char.isUpper, .plusG isWordChar]

/-- The `JavaScriptHandler._calculate_depth`: per line, a JSX-tag counter and a
brace counter (both unclamped), the result being the maximum value either
ever reaches. -/
def jsCalculateDepth (content : List Char) : Int :=
  let step := fun (st : Int × Int × Int) (line : List Char) =>
    let (md, cd, jd) := st
    let jsxOpen := reFindallCount rxJsxOpen line
    let jsxClose := reFindallCount rxJsxClose line + countSub (str2l "/>") line
    let jd' := jd + (jsxOpen : Int) - (jsxClose : Int)
    let cd' := cd + (countChar '{' line : Int) - (countChar '}' line : Int)
    (max (max md cd') jd', cd', jd')
  ((pySplitlines content).foldl step (0, 0, 0)).1

/-- The `(?:export\s+)?(?:default\s+)?function\s+([A-Z]\w+)` -/
def rxJsComp1 : Rx :=
  rcat [.opt (rcat [rs "export", .plusG rxSp]), .opt (rcat [rs "default", .plusG rxSp]),
        rs "function", .plusG rxSp, .grp 1 (rcat [.cls Char.isUpper, .plusG isWordChar])]

/-- The `(?:export\s+)?(?:default\s+)?const\s+([A-Z]\w+)\s*=\s*(?:\([^)]*\))?\s*=>` -/
def rxJsComp2 : Rx :=
  rcat [.opt (rcat [rs "export", .plusG rxSp]), .opt (rcat [rs "default", .plusG rxSp]),
        rs "const", .plusG rxSp, .grp 1 (rcat [.cls Char.isUpper, .plusG isWordChar]),
        .starG rxSp, rc '=', .starG rxSp,
        .opt (rcat [rc '(', .starG (fun c => c ≠ ')'), rc ')']), .starG rxSp, rs "=>"]

/-- The `class\s+([A-Z]\w+)\s+extends\s+(?:React\.)?Component` -/
def rxJsComp3 : Rx :=
  rcat [rs "class", .plusG rxSp, .grp 1 (rcat [.cls Char.isUpper, .plusG isWordChar]),
        .plusG rxSp, rs "extends", .plusG rxSp, .opt (rs "React."), rs "Component"]

/-- The `\(\s*{\s*([^}]+)\s*}\s*\)` -/
def rxJsProps1 : Rx :=
  rcat [rc '(', .starG rxSp, rc '{', .starG rxSp, .grp 1 (.plusG (fun c => c ≠ '}')),
        .starG rxSp, rc '}', .starG rxSp, rc ')']

/-- The `props\.(\w+)` -/
def rxJsProps2 : Rx := rcat [rs "props.", .grp 1 (.plusG isWordChar)]

/-- The `JavaScriptHandler._extract_props`. -/
def jsExtractProps (content : List Char) (startPos : Nat) : List (List Char) :=
  let window := pySlice content (startPos : Int) ((startPos : Int) + 200)
  let fromParams :=
    match (reFinditer rxJsProps1 window).head? with
    | some m => (pySplitChar ',' ((m.grp? 1).getD [])).map pyStrip
    | none => []
  let fromBody := (reFinditer rxJsProps2 (content.drop startPos)).filterMap fun m => m.grp? 1
  sortedDedup (fromParams ++ fromBody)

/-- The `\b(use[A-Z]\w+)` -/
def rxJsHook : Rx :=
  rcat [.wordB, .grp 1 (rcat [rs "use", .cls Char.isUpper, .plusG isWordChar])]

/-- The `standard_hooks` set of `_collect_hooks`. -/
def jsStandardHooks : List (List Char) :=
  [str2l "useState", str2l "useEffect", str2l "useContext", str2l "useReducer",
   str2l "useCallback", str2l "useMemo", str2l "useRef", str2l "useImperativeHandle",
   str2l "useLayoutEffect", str2l "useDebugValue"]

/-- Character scan of `_extract_hook_dependencies` (the `bracket_count`
variable of the source never changes, so the loop runs until a `]` is seen
while inside `[...]`, or to the end of the string; `[`/`]` themselves are
never collected). -/
def jsExtractHookDepsGo (inA : Bool) (acc : List Char) : List Char → List Char
  | [] => acc.reverse
  | c :: rest =>
    if c = '[' then jsExtractHookDepsGo true acc rest
    else if c = ']' ∧ inA then acc.reverse
    else if inA then jsExtractHookDepsGo inA (c :: acc) rest
    else jsExtractHookDepsGo inA acc rest

/-- The `JavaScriptHandler._extract_hook_dependencies`. -/
def jsExtractHookDeps (content : List Char) (startPos : Nat) : List (List Char) :=
  let arr := jsExtractHookDepsGo false [] (content.drop startPos)
  if arr.isEmpty then []
  else (pySplitChar ',' arr).filterMap fun d =>
    let t := pyStrip d
    if t.isEmpty then none else some t

/-- One entry of `_collect_hooks`. -/
structure HookInfo where
  name : List Char
  custom : Bool
  dependencies : List (List Char)
  deriving Repr, DecidableEq

/-- The `JavaScriptHandler._collect_hooks`. -/
def jsCollectHooks (content : List Char) : List HookInfo :=
  (reFinditer rxJsHook content).filterMap fun m =>
    let name := (m.grp? 1).getD []
    if (str2l "use").isPrefixOf name then
      some { name := name,
             custom := !(jsStandardHooks.contains name),
             dependencies := jsExtractHookDeps content (m.start + m.len) }
    else none

/-- Character scan of `_find_component_hooks` (brace-matched component body,
braces themselves not collected). -/
def jsFindComponentHooksGo (n : Int) (inC : Bool) (acc : List Char) : List Char → List Char
  | [] => acc.reverse
  | c :: rest =>
    if c = '{' then jsFindComponentHooksGo (n + 1) true acc rest
    else if c = '}' then
      if n - 1 = 0 ∧ inC then acc.reverse
      else jsFindComponentHooksGo (n - 1) inC acc rest
    else if inC then jsFindComponentHooksGo n inC (c :: acc) rest
    else jsFindComponentHooksGo n inC acc rest

/-- The `JavaScriptHandler._find_component_hooks`. -/
def jsFindComponentHooks (content : List Char) (startPos : Nat) : List (List Char) :=
  (jsCollectHooks (jsFindComponentHooksGo 0 false [] (content.drop startPos))).map (·.name)

/-- One entry of `_collect_components`. -/
structure ComponentInfo where
  name : List Char
  ctype : List Char
  hooks : List (List Char)
  props : List (List Char)
  deriving Repr, DecidableEq

/-- The `JavaScriptHandler._collect_components`. -/
def jsCollectComponents (content : List Char) : List ComponentInfo :=
  [(rxJsComp1, str2l "function"), (rxJsComp2, str2l "arrow"), (rxJsComp3, str2l "class")].flatMap
    fun pt => (reFinditer pt.1 content).map fun m =>
      { name := (m.grp? 1).getD [],
        ctype := pt.2,
        hooks := if pt.2 ≠ str2l "class" then jsFindComponentHooks content m.start else [],
        props := jsExtractProps content m.start }

/-- The analysis dict returned by `JavaScriptHandler.analyze_code`
(`components`/`hooks` only present when React patterns were detected). -/
structure JsAnalysisDict where
  success : Bool
  metrics : Option CodeMetrics
  imports : Option (List (List Char))
  exports : Option (List (List Char))
  functions : Option (List FuncInfo)
  classes : Option (List ClassInfo)
  components : Option (List ComponentInfo)
  hooks : Option (List HookInfo)
  error : Option (List Char)

/-- The `JavaScriptHandler.analyze_code`. -/
def jsAnalyze (content : List Char) : JsAnalysisDict :=
  match countLines jsMarkers content with
  | .ok m0 =>
    let cleaned := jsCleanContent content
    let metrics := { m0 with complexity := (jsCalculateComplexity cleaned : Int),
                             max_depth := jsCalculateDepth cleaned }
    let react := jsIsReactCode cleaned
    { success := true, metrics := some metrics,
      imports := some (jsCollectImports cleaned),
      exports := some (jsCollectExports cleaned),
      functions := some (jsCollectFunctions cleaned),
      classes := some (jsCollectClasses cleaned),
      components := if react then some (jsCollectComponents cleaned) else none,
      hooks := if react then some (jsCollectHooks cleaned) else none,
      error := none }
  | .error e =>
    { success := false, metrics := none, imports := none, exports := none,
      functions := none, classes := none, components := none, hooks := none,
      error := some e }

/-! ### `text_handler.py`: `TextHandler` -/

/-- The `TextHandler` markers: the multi-line markers are set to `None`
(which makes `_count_comment_lines` raise a `TypeError` on the first
non-blank line — caught by `analyze_code`'s `except`). -/
def textMarkers : CommentMarkers :=
  { single := str2l "#", multiStart := none, multiEnd := none }

/-- The `TextHandler.clean_content`: drop NUL bytes, normalise line endings,
rstrip every line, drop leading/trailing blank lines, join with `'\n'`. -/
def textCleanContent (content : List Char) : List Char :=
  let c1 := content.filter (· ≠ '\x00')
  let c2 := (replaceCRLF c1).map fun c => if c = '\r' then '\n' else c
  let lines := (pySplitlines c2).map pyRstrip
  let l1 := lines.dropWhile fun l => (pyStrip l).isEmpty
  let l2 := (l1.reverse.dropWhile fun l => (pyStrip l).isEmpty).reverse
  joinNL l2

/-- The `[^a-zA-Z0-9\s]` -/
def rxTextSpecial : Rx := .cls fun c => !(c.isAlphanum || pyIsSpace c)

/-- The `\d+` -/
def rxTextNumber : Rx := .plusG Char.isDigit

/-- The `[.,!?;:]` -/
def rxTextPunct : Rx :=
  .cls fun c => c = '.' || c = ',' || c = '!' || c = '?' || c = ';' || c = ':'

/-- The `\b\w+\b` -/
def rxWordRun : Rx := rcat [.wordB, .plusG isWordChar, .wordB]

/-- The `TextHandler._calculate_text_complexity`. -/
def textCalculateComplexity (content : List Char) : Nat :=
  let special_chars := reFindallCount rxTextSpecial content
  let numbers := reFindallCount rxTextNumber content
  let punctuation := reFindallCount rxTextPunct content
  let complex_words :=
    ((reFinditer rxWordRun content).map (·.whole)).filter (fun w => w.length > 6) |>.length
  max 1 ((special_chars + numbers + punctuation + complex_words) / 10)

/-! ### `csharp_handler.py`: `CSharpHandler._calculate_depth` -/

/-- The `CSharpHandler._calculate_depth`: character scan with the counter
clamped at 0 on `'}'` (`current_depth = max(0, current_depth - 1)`;
Nat subtraction is exactly this clamp). -/
def csharpCalculateDepth (content : List Char) : Nat :=
  (content.foldl
    (fun (st : Nat × Nat) c =>
      if c = '{' then (max st.1 (st.2 + 1), st.2 + 1)
      else if c = '}' then (st.1, st.2 - 1)
      else st)
    (0, 0)).1

/-! ### `handler_registry.py`: `CodeHandlerRegistry` -/

/-- The language identifiers registered by `_initialize_handlers`. -/
inductive Language where
  | python | javascript | react | typescript | text | java | csharp
  deriving DecidableEq, Repr

/-- One `register_handler` call: lower-cased extensions are added to the
mapping, an existing entry is overwritten (with a warning in the source). -/
def registerExts (m : List (List Char × Language)) (lang : Language)
    (exts : List (List Char)) : List (List Char × Language) :=
  exts.foldl
    (fun m ext =>
      let key := ext.map Char.toLower
      if m.any fun kv => kv.1 = key then
        m.map fun kv => if kv.1 = key then (key, lang) else kv
      else m ++ [(key, lang)])
    m

/-- The `_extension_mapping` after `_initialize_handlers` (registrations in
source order). -/
def registryExtensionMapping : List (List Char × Language) :=
  let m := registerExts [] .python [str2l ".py"]
  let m := registerExts m .javascript [str2l ".js"]
  let m := registerExts m .react [str2l ".jsx", str2l ".tsx"]
  let m := registerExts m .typescript [str2l ".ts"]
  let m := registerExts m .text [str2l ".txt", str2l ".md", str2l ".rst", str2l ".log"]
  let m := registerExts m .java [str2l ".java"]
  registerExts m .csharp
    [str2l ".cs", str2l ".cshtml", str2l ".razor", str2l ".csx", str2l ".vb",
     str2l ".fs", str2l ".fsx", str2l ".xaml", str2l ".aspx", str2l ".ascx",
     str2l ".master"]

/-- The `CodeHandlerRegistry.get_handler_for_file`, extension part: look up the
lower-cased suffix. -/
def registryLookupExt (ext : List Char) : Option Language :=
  (registryExtensionMapping.find? fun kv => kv.1 = ext.map Char.toLower).map Prod.snd

/-! ### `content_processor.py`: `ContentProcessor.process_file` / `process`

The aggregation layer only inspects `analysis.get('success')` and
`analysis.get('error')` of a handler's result and stores the rest opaquely,
so a handler is modelled as a pair of total functions producing the cleaned
text and that success/error view; the claims about the aggregator are proved
for **every** such handler assignment, and the embedded Python/JavaScript
analyzers instantiate it. -/

/-- The success/error view of an analysis dict. -/
structure ProcAnalysis where
  success : Bool
  error : Option (List Char)
  deriving Repr, DecidableEq

/-- A handler instance as used by `process_file`. -/
structure Handler where
  clean : List Char → List Char
  analyze : List Char → ProcAnalysis

/-- The dict returned by `file_parser.process_file` (fields used by
`ContentProcessor.process_file`). -/
structure FileInfo where
  content : List Char
  category : List Char
  is_test : Bool

/-- One candidate file together with the values the environment supplies
for it.  `unexpected = some e` models an exception raised inside the `try`
block before any statistics were touched (e.g. by the parser or the
filesystem); it is routed to the `except` branch. -/
structure FileDesc where
  path : List Char
  relPath : List Char
  ext : List Char
  rawSize : Nat
  hash : List Char
  shouldProcess : Bool
  fileInfo : Option FileInfo
  unexpected : Option (List Char)

/-- The `self.stats` dict (the float `processing_time`, set once after the
loop, is not modelled). -/
structure Stats where
  processed_files : Nat := 0
  skipped_files : Nat := 0
  failed_files : Nat := 0
  total_raw_size : Nat := 0
  total_cleaned_size : Nat := 0
  total_files : Nat := 0
  file_types : List (List Char × Nat) := []
  failed_files_info : List (List Char × List Char) := []
  deriving Repr, DecidableEq

/-- The per-file result dict built by `process_file`. -/
structure FileRecord where
  path : List Char
  ftype : List Char
  analysis : ProcAnalysis
  size : Nat
  content : List Char
  hash : List Char
  category : List Char
  is_test : Bool

/-- The `self.stats['file_types'][ft] = self.stats['file_types'].get(ft, 0) + 1`. -/
def bumpFileType (m : List (List Char × Nat)) (ft : List Char) : List (List Char × Nat) :=
  if m.any fun kv => kv.1 = ft then
    m.map fun kv => if kv.1 = ft then (kv.1, kv.2 + 1) else kv
  else m ++ [(ft, 1)]

/-- The `ContentProcessor.process_file`. -/
def processFile (handlers : Language → Handler) (st : Stats) (f : FileDesc) :
    Stats × Option FileRecord :=
  match f.unexpected with
  | some e =>
    ({ st with failed_files := st.failed_files + 1,
               failed_files_info :=
                 st.failed_files_info ++ [(f.path, str2l "Unexpected error: " ++ e)] },
     none)
  | none =>
    if !f.shouldProcess then
      ({ st with skipped_files := st.skipped_files + 1 }, none)
    else
      match f.fileInfo with
      | none => ({ st with skipped_files := st.skipped_files + 1 }, none)
      | some fi =>
        match registryLookupExt f.ext with
        | none => ({ st with skipped_files := st.skipped_files + 1 }, none)
        | some lang =>
          let handler := handlers lang
          let cleaned := handler.clean fi.content
          if (pyStrip cleaned).isEmpty then
            ({ st with skipped_files := st.skipped_files + 1 }, none)
          else
            let analysis := handler.analyze cleaned
            if !analysis.success then
              let errMsg := analysis.error.getD (str2l "Unknown analysis error")
              ({ st with failed_files := st.failed_files + 1,
                         failed_files_info :=
                           st.failed_files_info ++
                             [(f.path, str2l "Analysis error: " ++ errMsg)] },
               none)
            else
              let ft := f.ext.dropWhile (· = '.')
              let cleanedSize := utf8Len cleaned
              ({ st with total_raw_size := st.total_raw_size + f.rawSize,
                         total_cleaned_size := st.total_cleaned_size + cleanedSize,
                         file_types := bumpFileType st.file_types ft,
                         processed_files := st.processed_files + 1 },
               some { path := f.relPath, ftype := ft, analysis := analysis,
                      size := cleanedSize, content := cleaned, hash := f.hash,
                      category := fi.category, is_test := fi.is_test })

/-- The `ContentProcessor.process`: `total_files` is fixed to the length of the
candidate list before the loop; each file is processed in order and truthy
results are collected. -/
def processRun (handlers : Language → Handler) (files : List FileDesc) :
    Stats × List FileRecord :=
  files.foldl
    (fun acc f =>
      let r := processFile handlers acc.1 f
      (r.1, acc.2 ++ r.2.toList))
    ({ total_files := files.length }, [])

/-! ### Concrete test vectors used by witnesses and counterexamples -/

/-- The seven-line Python source of the spec's concrete scenario A. -/
def scenarioA : List Char :=
  str2l "import os\ndef foo(a, b):\n    if a:\n        return b\nclass Bar:\n    def baz(self):\n        pass"

/-- The success/error view of a Python analysis result. -/
def pythonProcAnalyze (content : List Char) : ProcAnalysis :=
  let r := pythonAnalyze content
  { success := r.success, error := r.error }

/-- The success/error view of a JavaScript analysis result. -/
def jsProcAnalyze (content : List Char) : ProcAnalysis :=
  let r := jsAnalyze content
  { success := r.success, error := r.error }

/-- Handler assignment used by the witnesses: the embedded Python and
JavaScript handlers where available; the languages whose analyzers are not
embedded here (text/java/csharp) are given the Python handler — the
aggregator theorems hold for every assignment, so any choice instantiates
them. -/
def witnessHandlers : Language → Handler
  | .python => { clean := pythonCleanContent, analyze := pythonProcAnalyze }
  | .javascript => { clean := jsCleanContent, analyze := jsProcAnalyze }
  | .typescript => { clean := jsCleanContent, analyze := jsProcAnalyze }
  | .react => { clean := jsCleanContent, analyze := jsProcAnalyze }
  | _ => { clean := pythonCleanContent, analyze := pythonProcAnalyze }

/-- A `.png` candidate file (unsupported extension). -/
def pngFileDesc : FileDesc :=
  { path := str2l "img.png", relPath := str2l "img.png", ext := str2l ".png",
    rawSize := 4, hash := str2l "h1", shouldProcess := true,
    fileInfo := some { content := str2l "data", category := str2l "asset", is_test := false },
    unexpected := none }

/-- A Python file containing only a comment line (cleans to empty). -/
def commentOnlyPyFileDesc : FileDesc :=
  { path := str2l "c.py", relPath := str2l "c.py", ext := str2l ".py",
    rawSize := 16, hash := str2l "h2", shouldProcess := true,
    fileInfo := some { content := str2l "# just a comment", category := str2l "source",
                       is_test := false },
    unexpected := none }

/-- A file whose processing raises an unexpected error inside the `try`. -/
def boomFileDesc : FileDesc :=
  { path := str2l "b.py", relPath := str2l "b.py", ext := str2l ".py",
    rawSize := 3, hash := str2l "h3", shouldProcess := true,
    fileInfo := none, unexpected := some (str2l "boom") }

/-! ### Proof-side invariants for the clean-idempotence claim

`goodBlocks s` says the first `/*` of `s` (if any) has no `*/` anywhere
after it — exactly the strings on which the block-comment pass is the
identity.  `gbLs` is the same invariant read off a list of `'\n'`-free
lines. -/

def goodBlocks : List Char → Bool
  | '/' :: '*' :: rest => !hasPair '*' '/' rest
  | _ :: rest => goodBlocks rest
  | [] => true

def gbLs : List (List Char) → Bool
  | [] => true
  | l :: ls =>
    if hasPair '/' '*' l then goodBlocks l && !(ls.any fun m => hasPair '*' '/' m)
    else gbLs ls

/-! ## Helper lemmas -/

/-- Folding `acc + g x` over a list never goes below the initial value. -/
theorem le_foldl_add {α : Type} (g : α → Nat) (l : List α) (init : Nat) :
    init ≤ l.foldl (fun acc x => acc + g x) init := by
  induction l generalizing init with
  | nil => simp
  | cons x xs ih => exact le_trans (Nat.le_add_right _ _) (ih _)

/-- The `PythonHandler._calculate_complexity` starts at 1 and only adds. -/
theorem one_le_pythonCalculateComplexity (content : List Char) :
    1 ≤ pythonCalculateComplexity content :=
  le_foldl_add _ _ 1

/-- The metrics of a successful `PythonHandler.analyze_code` carry the
complexity of the cleaned content. -/
theorem pythonAnalyze_metrics_complexity (content : List Char) (m : CodeMetrics)
    (h : (pythonAnalyze content).metrics = some m) :
    m.complexity = (pythonCalculateComplexity (pythonCleanContent content) : Int) := by
  unfold pythonAnalyze at h
  rcases he : pythonAnalyzeE content with e | v
  · rw [he] at h; simp at h
  · rw [he] at h
    obtain ⟨mm, imps, fns, cls⟩ := v
    simp at h
    unfold pythonAnalyzeE at he
    split at he
    · exact absurd he (by simp)
    · dsimp only at he
      split at he
      · exact absurd he (by simp)
      · simp at he
        rw [← h, ← he.1]

/-- The metrics of a successful `JavaScriptHandler.analyze_code` carry the
complexity of the cleaned content. -/
theorem jsAnalyze_metrics_complexity (content : List Char) (m : CodeMetrics)
    (h : (jsAnalyze content).metrics = some m) :
    m.complexity = (jsCalculateComplexity (jsCleanContent content) : Int) := by
  unfold jsAnalyze at h
  rcases he : countLines jsMarkers content with e | m0 <;> rw [he] at h <;> simp at h
  rw [← h]

/-! ## Claim theorems -/

/-- Claim C1. For every input string, `PythonHandler.analyze_code` and
`JavaScriptHandler.analyze_code` return a result dict holding exactly one of
success-with-metrics (`success = True`, `metrics` present, no `error` key)
or failure-with-error (`success = False`, `error` present, no `metrics`
key); in the embedding both functions are total, which models that no
exception propagates to the caller. -/
theorem c1_analyze_exactly_one_of_ok_or_error (content : List Char) :
    (((pythonAnalyze content).success = true ∧ (pythonAnalyze content).metrics.isSome = true ∧
        (pythonAnalyze content).error = none) ∨
     ((pythonAnalyze content).success = false ∧ (pythonAnalyze content).metrics = none ∧
        (pythonAnalyze content).error.isSome = true)) ∧
    (((jsAnalyze content).success = true ∧ (jsAnalyze content).metrics.isSome = true ∧
        (jsAnalyze content).error = none) ∨
     ((jsAnalyze content).success = false ∧ (jsAnalyze content).metrics = none ∧
        (jsAnalyze content).error.isSome = true)) := by
  constructor
  · unfold pythonAnalyze
    rcases pythonAnalyzeE content with e | ⟨m, imps, fns, cls⟩
    · exact Or.inr (by simp)
    · exact Or.inl (by simp)
  · unfold jsAnalyze
    rcases countLines jsMarkers content with e | m0
    · exact Or.inr (by simp)
    · exact Or.inl (by simp)

/-- Claim C2. Every complexity value the analyzers produce is at least 1: the
`metrics.complexity` of any successful Python or JavaScript analysis, the
text handler's `_calculate_text_complexity`, and the base handler's
`calculate_complexity`. -/
theorem c2_complexity_at_least_one (content : List Char) (m : CodeMetrics) :
    ((pythonAnalyze content).metrics = some m → 1 ≤ m.complexity) ∧
    ((jsAnalyze content).metrics = some m → 1 ≤ m.complexity) ∧
    1 ≤ textCalculateComplexity content ∧
    1 ≤ baseCalculateComplexity content := by
  refine ⟨fun h => ?_, fun h => ?_, le_max_left 1 _, le_max_left 1 _⟩
  · rw [pythonAnalyze_metrics_complexity content m h]
    exact_mod_cast one_le_pythonCalculateComplexity _
  · rw [jsAnalyze_metrics_complexity content m h]
    unfold jsCalculateComplexity
    exact_mod_cast le_max_left 1 _

/-- Witness for C2 at concrete inputs. -/
theorem c2_complexity_at_least_one_witness :
    (pythonAnalyze (str2l "pass")).metrics =
        some { lines_of_code := 1, comment_lines := 0, blank_lines := 0,
               complexity := 1, maintainability_index := 100, max_depth := 0 } ∧
    (1 : Int) ≤ (1 : Int) := by
  refine ⟨by decide, ?_⟩
  exact (c2_complexity_at_least_one (str2l "pass")
    { lines_of_code := 1, comment_lines := 0, blank_lines := 0,
      complexity := 1, maintainability_index := 100, max_depth := 0 }).1 (by decide)

/-- Claim C6 (code evaluation for the code_bug): on the two-line input
`"/* c */\nx = 1"` — whose first line contains both the open marker and the
close marker — `_count_comment_lines` counts **2** comment lines: the first
line is counted once (as the claim states), but the `in_multi_line` flag is
left `True` (the branch never checks for the close marker on the same line),
so the following code line `x = 1` is also counted.  The claim's expected
count is 1. -/
theorem c6_same_line_block_comment_eval :
    countCommentLines jsMarkers (str2l "/* c */\nx = 1") = .ok 2 := rfl

/-- Claim C7 counterexample. The base handler's brace-depth counter is *not*
clamped at 0: on `"}\n{"` (close brace before open brace) it returns 0,
while on `"{"` (the leading close brace removed) it returns 1 — refuting
the claim that leading excess close braces behave as if absent. -/
theorem c7_base_unclamped_counterexample :
    baseCalculateMaxDepth (str2l "\x7d\n\x7b") = 0 ∧ baseCalculateMaxDepth (str2l "\x7b") = 1 := by
  decide

/-- Claim C7 amended. Only the C# variant (`CSharpHandler._calculate_depth`)
clamps its counter at 0, so for it any run of leading excess close braces is
ignored: prepending `n` close braces never changes its result.  The base
handler's and the JavaScript handler's counters are unclamped (see the
counterexample), so there the claim fails. -/
theorem c7_csharp_clamped_amended (n : Nat) (content : List Char) :
    csharpCalculateDepth (List.replicate n '}' ++ content) = csharpCalculateDepth content := by
  unfold csharpCalculateDepth
  rw [List.foldl_append]
  congr 1
  induction n with
  | zero => rfl
  | succ k ih => simpa using ih

/-- Claim C3 counterexample. On scenario A the Python analyzer's `functions`
list is exactly one dict with the keys `name` and `is_async`: the entry for
`foo` records **no** argument list (neither an `arguments` nor an `args`
key exists), so the claim's `args = ["a", "b"]` is not what the code
produces. -/
theorem c3_no_args_counterexample :
    (pythonAnalyze scenarioA).functions =
      some [[(str2l "name", PyVal.str (str2l "foo")), (str2l "is_async", PyVal.bool false)]] ∧
    pyLookup (str2l "arguments")
      [(str2l "name", PyVal.str (str2l "foo")), (str2l "is_async", PyVal.bool false)] = none ∧
    pyLookup (str2l "args")
      [(str2l "name", PyVal.str (str2l "foo")), (str2l "is_async", PyVal.bool false)] = none :=
  ⟨rfl, rfl, rfl⟩

/-- Claim C3 amended. On scenario A the Python analyzer returns success with
`imports = ["os"]`, a single function entry named `foo` (with its `is_async`
flag but no recorded arguments), a class `Bar` whose methods contain `baz`,
and `complexity = 2 ≥ 2`. -/
theorem c3_scenarioA_amended :
    (pythonAnalyze scenarioA).success = true ∧
    (pythonAnalyze scenarioA).imports = some [str2l "os"] ∧
    (pythonAnalyze scenarioA).functions = some [mkPyFn (str2l "foo") false] ∧
    (pythonAnalyze scenarioA).classes =
      some [mkPyClass (str2l "Bar") [mkPyFn (str2l "baz") false]] ∧
    (pythonAnalyze scenarioA).metrics =
      some { lines_of_code := 7, comment_lines := 0, blank_lines := 0,
             complexity := 2, maintainability_index := 100, max_depth := 2 } ∧
    (2 : Int) ≤ 2 :=
  ⟨rfl, rfl, rfl, rfl, rfl, le_refl 2⟩

/-- Each `process_file` call increments exactly one of the three outcome
counters by one and leaves `total_files` unchanged. -/
theorem processFile_step (handlers : Language → Handler) (st : Stats) (f : FileDesc) :
    ((processFile handlers st f).1.processed_files + (processFile handlers st f).1.skipped_files +
        (processFile handlers st f).1.failed_files =
      st.processed_files + st.skipped_files + st.failed_files + 1) ∧
    (processFile handlers st f).1.total_files = st.total_files := by
  unfold processFile
  rcases f.unexpected with _ | e
  · by_cases hsp : f.shouldProcess
    · rw [hsp]
      rcases f.fileInfo with _ | fi
      · exact ⟨by simp; omega, rfl⟩
      · rcases registryLookupExt f.ext with _ | lang
        · exact ⟨by simp; omega, rfl⟩
        · by_cases hcl : (pyStrip ((handlers lang).clean fi.content)).isEmpty
          · exact ⟨by simp [hcl]; omega, by simp [hcl]⟩
          · by_cases han : ((handlers lang).analyze ((handlers lang).clean fi.content)).success
            · exact ⟨by simp [hcl, han]; omega, by simp [hcl, han]⟩
            · exact ⟨by simp [hcl, han]; omega, by simp [hcl, han]⟩
    · exact ⟨by simp [hsp]; omega, by simp [hsp]⟩
  · exact ⟨by simp; omega, rfl⟩

/-- Fold invariant behind C4. -/
theorem processRun_aux (handlers : Language → Handler) :
    ∀ (files : List FileDesc) (acc : Stats × List FileRecord),
      ((files.foldl
          (fun acc f =>
            let r := processFile handlers acc.1 f
            (r.1, acc.2 ++ r.2.toList)) acc).1.processed_files +
       (files.foldl
          (fun acc f =>
            let r := processFile handlers acc.1 f
            (r.1, acc.2 ++ r.2.toList)) acc).1.skipped_files +
       (files.foldl
          (fun acc f =>
            let r := processFile handlers acc.1 f
            (r.1, acc.2 ++ r.2.toList)) acc).1.failed_files =
        acc.1.processed_files + acc.1.skipped_files + acc.1.failed_files + files.length) ∧
      (files.foldl
          (fun acc f =>
            let r := processFile handlers acc.1 f
            (r.1, acc.2 ++ r.2.toList)) acc).1.total_files = acc.1.total_files := by
  intro files
  induction files with
  | nil => intro acc; simp
  | cons f fs ih =>
    intro acc
    simp only [List.foldl_cons, List.length_cons]
    have h1 := processFile_step handlers acc.1 f
    have h2 := ih ((processFile handlers acc.1 f).1, acc.2 ++ (processFile handlers acc.1 f).2.toList)
    constructor
    · rw [h2.1]; dsimp only; omega
    · rw [h2.2]; exact h1.2

/-- Claim C4. For every handler assignment and every finite candidate list,
at the end of `ContentProcessor.process` the statistics satisfy
`processed_files + skipped_files + failed_files = total_files`, and
`total_files` equals the length of the candidate list fixed at run start. -/
theorem c4_stats_partition (handlers : Language → Handler) (files : List FileDesc) :
    ((processRun handlers files).1.processed_files +
       (processRun handlers files).1.skipped_files +
       (processRun handlers files).1.failed_files =
     (processRun handlers files).1.total_files) ∧
    (processRun handlers files).1.total_files = files.length := by
  unfold processRun
  have h := processRun_aux handlers files ({ total_files := files.length }, [])
  refine ⟨?_, h.2⟩
  rw [h.1, h.2]
  simp

/-- Claim C5. A file with no registered handler for its extension, or whose
content cleans to the empty string, is skipped and never failed: the
resulting statistics are exactly the old ones with `skipped_files + 1`
(so `failed_files` and `failed_files_info` are untouched), and no
`FileRecord` is produced. -/
theorem c5_unsupported_or_empty_clean_is_skip (handlers : Language → Handler)
    (st : Stats) (f : FileDesc) (fi : FileInfo)
    (h1 : f.unexpected = none) (h2 : f.shouldProcess = true) (h3 : f.fileInfo = some fi)
    (h4 : registryLookupExt f.ext = none ∨
          ∃ lang, registryLookupExt f.ext = some lang ∧
            (pyStrip ((handlers lang).clean fi.content)).isEmpty = true) :
    processFile handlers st f = ({ st with skipped_files := st.skipped_files + 1 }, none) := by
  unfold processFile
  rw [h1, h2, h3]
  rcases h4 with h4 | ⟨lang, hl, hc⟩
  · rw [h4]; simp
  · rw [hl]; simp [hc]

/-- Witness for C5: the `.png` file (unsupported extension) and the
comment-only Python file (empty after cleaning) are both skipped. -/
theorem c5_unsupported_or_empty_clean_is_skip_witness :
    processFile witnessHandlers {} pngFileDesc =
      ({ ({} : Stats) with skipped_files := 1 }, none) ∧
    processFile witnessHandlers {} commentOnlyPyFileDesc =
      ({ ({} : Stats) with skipped_files := 1 }, none) := by
  constructor
  · exact c5_unsupported_or_empty_clean_is_skip witnessHandlers {} pngFileDesc
      { content := str2l "data", category := str2l "asset", is_test := false }
      rfl rfl rfl (Or.inl (by decide))
  · exact c5_unsupported_or_empty_clean_is_skip witnessHandlers {} commentOnlyPyFileDesc
      { content := str2l "# just a comment", category := str2l "source", is_test := false }
      rfl rfl rfl (Or.inr ⟨.python, by decide, by decide⟩)

/-- Claim C8 counterexample. `collect_functions` has no keyword-exclusion
check: on the text `"if (x) {"` its third pattern matches with captured
name `if`, so the functions list contains an entry named `if`. -/
theorem c8_functions_include_if_counterexample :
    jsCollectFunctions (str2l "if (x) \x7b") =
      [{ name := str2l "if", arguments := [str2l "x"], decorators := [], is_async := false }] :=
  rfl

/-- Claim C8 amended. The explicit keyword exclusion exists only in
`_collect_methods`: every entry of the methods list has a name outside
`('if', 'for', 'while', 'switch')`; `collect_functions` performs no such
check (see the counterexample, where `"if (x) {"` yields a function named
`if`). -/
theorem c8_methods_exclude_keywords_amended (body : List Char) (f : FuncInfo)
    (h : f ∈ jsCollectMethods body) :
    ¬ f.name ∈ jsKeywordNames := by
  unfold jsCollectMethods at h
  rw [List.mem_filterMap] at h
  obtain ⟨m, _, hm⟩ := h
  by_cases hk : ((m.grp? 1).getD []) ∈ jsKeywordNames
  · rw [if_pos hk] at hm
    exact absurd hm (by simp)
  · rw [if_neg hk] at hm
    injection hm with hm2
    intro hf
    apply hk
    rw [← hm2] at hf
    exact hf

/-- Witness for C8 amended: a concrete method entry. -/
theorem c8_methods_exclude_keywords_amended_witness :
    (⟨str2l "foo", [str2l "a"], [], false⟩ : FuncInfo) ∈
        jsCollectMethods (str2l "foo(a) { b }") ∧
    ¬ (⟨str2l "foo", [str2l "a"], [], false⟩ : FuncInfo).name ∈ jsKeywordNames := by
  have hm : (⟨str2l "foo", [str2l "a"], [], false⟩ : FuncInfo) ∈
      jsCollectMethods (str2l "foo(a) { b }") := by
    rw [show jsCollectMethods (str2l "foo(a) { b }") =
          [⟨str2l "foo", [str2l "a"], [], false⟩] from rfl]
    exact List.mem_singleton.mpr rfl
  exact ⟨hm, c8_methods_exclude_keywords_amended _ _ hm⟩

/-- Claim C10. When a file ends in a failure outcome — the analysis returned
`success = False`, or an unexpected error was caught — all statistics other
than the failure fields are unchanged: `processed_files`, `skipped_files`,
`total_raw_size`, `total_cleaned_size` and `file_types` keep their values,
only `failed_files` is incremented and one entry is appended to
`failed_files_info`; no `FileRecord` is produced. -/
theorem c10_failure_frame (handlers : Language → Handler) (st : Stats) (f : FileDesc)
    (h : f.unexpected.isSome = true ∨
         (f.unexpected = none ∧ f.shouldProcess = true ∧
          ∃ fi lang, f.fileInfo = some fi ∧ registryLookupExt f.ext = some lang ∧
            (pyStrip ((handlers lang).clean fi.content)).isEmpty = false ∧
            ((handlers lang).analyze ((handlers lang).clean fi.content)).success = false)) :
    ((processFile handlers st f).1.processed_files = st.processed_files ∧
     (processFile handlers st f).1.skipped_files = st.skipped_files ∧
     (processFile handlers st f).1.total_raw_size = st.total_raw_size ∧
     (processFile handlers st f).1.total_cleaned_size = st.total_cleaned_size ∧
     (processFile handlers st f).1.file_types = st.file_types) ∧
    (processFile handlers st f).1.failed_files = st.failed_files + 1 ∧
    (∃ e, (processFile handlers st f).1.failed_files_info =
        st.failed_files_info ++ [(f.path, e)]) ∧
    (processFile handlers st f).2 = none := by
  rcases h with h | ⟨h1, h2, fi, lang, h3, h4, h5, h6⟩
  · obtain ⟨e, he⟩ := Option.isSome_iff_exists.mp h
    unfold processFile
    rw [he]
    exact ⟨⟨rfl, rfl, rfl, rfl, rfl⟩, rfl, ⟨_, rfl⟩, rfl⟩
  · have hres : processFile handlers st f =
        ({ st with failed_files := st.failed_files + 1,
                   failed_files_info := st.failed_files_info ++
                     [(f.path, str2l "Analysis error: " ++
                        ((handlers lang).analyze ((handlers lang).clean fi.content)).error.getD
                          (str2l "Unknown analysis error"))] }, none) := by
      unfold processFile
      rw [h1, h2, h3, h4]
      simp [h5, h6]
    rw [hres]
    exact ⟨⟨rfl, rfl, rfl, rfl, rfl⟩, rfl, ⟨_, rfl⟩, rfl⟩

/-- Witness for C10: the file with an unexpected error. -/
theorem c10_failure_frame_witness :
    (processFile witnessHandlers {} boomFileDesc).1.failed_files = 1 ∧
    (processFile witnessHandlers {} boomFileDesc).1.processed_files = 0 ∧
    (processFile witnessHandlers {} boomFileDesc).1.skipped_files = 0 := by
  have h := c10_failure_frame witnessHandlers {} boomFileDesc (Or.inl rfl)
  exact ⟨h.2.1, h.1.1, h.1.2.1⟩

/-! ## Lemmas towards C9 (idempotence of `clean_content`) -/

/-! ### Stage A: string primitives -/

theorem mem_pyLstrip {c : Char} {l : List Char} (h : c ∈ pyLstrip l) : c ∈ l :=
  (List.dropWhile_sublist _).mem h

theorem mem_pyRstrip {c : Char} {l : List Char} (h : c ∈ pyRstrip l) : c ∈ l := by
  unfold pyRstrip at h
  rw [List.mem_reverse] at h
  exact List.mem_reverse.mp ((List.dropWhile_sublist _).mem h)

theorem mem_pyStrip {c : Char} {l : List Char} (h : c ∈ pyStrip l) : c ∈ l :=
  mem_pyLstrip (mem_pyRstrip h)

/-- The substitution `replace('\r\n','\n')` is the identity on strings without `'\r'`. -/
theorem replaceCRLF_of_no_cr {s : List Char} (h : ∀ c ∈ s, c ≠ '\r') :
    replaceCRLF s = s := by
  unfold replaceCRLF
  induction s with
  | nil => rfl
  | cons c rest ih =>
    have hc : c ≠ '\r' := h c (by simp)
    simp only [replaceCRLFAux, if_neg, hc, if_false, reduceIte]
    rw [if_neg (by simp [hc])]
    exact congrArg (c :: ·) (ih fun c' hc' => h c' (by simp [hc']))

/-- Splitting with an empty accumulator never yields lines with break
characters. -/
theorem splitlinesAux_no_break :
    ∀ (s acc : List Char), (∀ c ∈ acc, isLineBreak c = false) →
      ∀ l ∈ pySplitlinesAux acc s, ∀ c ∈ l, isLineBreak c = false := by
  intro s
  induction s with
  | nil =>
    intro acc hacc l hl
    unfold pySplitlinesAux at hl
    split at hl
    · simp at hl
    · simp at hl
      subst hl
      intro c hc
      exact hacc c (List.mem_reverse.mp hc)
  | cons c rest ih =>
    intro acc hacc l hl
    rw [pySplitlinesAux] at hl
    by_cases hb : isLineBreak c
    · rw [if_pos hb] at hl
      rcases List.mem_cons.mp hl with hl | hl
      · subst hl
        intro c' hc'
        exact hacc c' (List.mem_reverse.mp hc')
      · exact ih [] (by simp) l hl
    · rw [if_neg hb] at hl
      refine ih (c :: acc) ?_ l hl
      intro c' hc'
      rcases List.mem_cons.mp hc' with h | h
      · subst h; exact Bool.of_not_eq_true hb
      · exact hacc c' h

/-- Lines of `splitlines` contain no line-break characters. -/
theorem splitlines_no_break {s l : List Char} (hl : l ∈ pySplitlines s) :
    ∀ c ∈ l, isLineBreak c = false :=
  splitlinesAux_no_break (replaceCRLF s) [] (by simp) l hl

/-- Unfolding `'\n'.join` over a non-empty tail. -/
theorem joinNL_cons {l : List Char} {ls : List (List Char)} (h : ls ≠ []) :
    joinNL (l :: ls) = l ++ '\n' :: joinNL ls := by
  obtain ⟨m, t, rfl⟩ := List.exists_cons_of_ne_nil h
  simp [joinNL, List.intercalate, List.intersperse]

/-- Characters of a join are newlines or characters of some line. -/
theorem mem_joinNL {c : Char} : ∀ {ls : List (List Char)}, c ∈ joinNL ls →
    c = '\n' ∨ ∃ l ∈ ls, c ∈ l := by
  intro ls
  induction ls with
  | nil => intro h; simp [joinNL, List.intercalate] at h
  | cons l t ih =>
    intro h
    rcases eq_or_ne t [] with rfl | hne
    · right
      exact ⟨l, by simp, by simpa [joinNL, List.intercalate] using h⟩
    · rw [joinNL_cons hne] at h
      rcases List.mem_append.mp h with h | h
      · exact Or.inr ⟨l, by simp, h⟩
      · rcases List.mem_cons.mp h with h | h
        · exact Or.inl h
        · rcases ih h with h | ⟨l', hl', hc⟩
          · exact Or.inl h
          · exact Or.inr ⟨l', by simp [hl'], hc⟩

/-- Consuming a break-free chunk just accumulates it. -/
theorem splitlinesAux_append {l : List Char} (hnb : ∀ c ∈ l, isLineBreak c = false) :
    ∀ (acc rest : List Char),
      pySplitlinesAux acc (l ++ rest) = pySplitlinesAux (l.reverse ++ acc) rest := by
  induction l with
  | nil => intro acc rest; simp
  | cons c l' ih =>
    intro acc rest
    have hc : isLineBreak c = false := hnb c (by simp)
    rw [List.cons_append, pySplitlinesAux, if_neg (by simp [hc])]
    rw [ih (fun c' h => hnb c' (by simp [h])) (c :: acc) rest]
    simp

/-- Splitting an explicit join recovers the lines, provided no line contains
a break character and the last line is non-empty. -/
theorem splitlinesAux_joinNL :
    ∀ {ls : List (List Char)}, (∀ l ∈ ls, ∀ c ∈ l, isLineBreak c = false) →
      ls.getLast? ≠ some [] → pySplitlinesAux [] (joinNL ls) = ls := by
  intro ls
  induction ls with
  | nil => intro _ _; rfl
  | cons l t ih =>
    intro hnb hlast
    rcases eq_or_ne t [] with rfl | hne
    · have hl : l ≠ [] := by simpa using hlast
      have : joinNL [l] = l ++ [] := by simp [joinNL, List.intercalate]
      rw [this, splitlinesAux_append (hnb l (by simp)) [] []]
      unfold pySplitlinesAux
      rw [if_neg (by simp [hl])]
      simp
    · rw [joinNL_cons hne, splitlinesAux_append (hnb l (by simp)) [] ('\n' :: joinNL t)]
      rw [pySplitlinesAux, if_pos (by simp [isLineBreak])]
      have hlast' : t.getLast? ≠ some [] := by
        obtain ⟨m, u, rfl⟩ := List.exists_cons_of_ne_nil hne
        simpa using hlast
      rw [ih (fun l' h' => hnb l' (by simp [h'])) hlast']
      simp

/-- Round trip: `splitlines('\n'.join(lines)) = lines` for break-free lines
whose last element is non-empty. -/
theorem splitlines_joinNL {ls : List (List Char)}
    (hnb : ∀ l ∈ ls, ∀ c ∈ l, isLineBreak c = false)
    (hlast : ls.getLast? ≠ some []) : pySplitlines (joinNL ls) = ls := by
  unfold pySplitlines
  rw [replaceCRLF_of_no_cr, splitlinesAux_joinNL hnb hlast]
  intro c hc
  rcases mem_joinNL hc with rfl | ⟨l, hl, hcl⟩
  · decide
  · intro h
    subst h
    have := hnb l hl '\r' hcl
    simp [isLineBreak] at this

/-! ### Stage A2: strip decompositions and idempotence -/

theorem head?_dropWhile_not {α : Type} (p : α → Bool) :
    ∀ (l : List α) {c : α}, (l.dropWhile p).head? = some c → p c = false := by
  intro l
  induction l with
  | nil => intro c h; simp at h
  | cons x xs ih =>
    intro c h
    rw [List.dropWhile_cons] at h
    split at h
    · exact ih h
    · rename_i hx
      simp at h
      subst h
      exact Bool.of_not_eq_true hx

theorem dropWhile_eq_self_of_head {α : Type} (p : α → Bool) (l : List α)
    (h : ∀ c, l.head? = some c → p c = false) : l.dropWhile p = l := by
  cases l with
  | nil => rfl
  | cons x xs =>
    rw [List.dropWhile_cons, if_neg]
    simp [h x rfl]

theorem dropWhile_idem {α : Type} (p : α → Bool) (l : List α) :
    (l.dropWhile p).dropWhile p = l.dropWhile p :=
  dropWhile_eq_self_of_head p _ (fun _ h => head?_dropWhile_not p l h)

theorem pyRstrip_decomp (l : List Char) :
    ∃ q, (∀ c ∈ q, pyIsSpace c = true) ∧ l = pyRstrip l ++ q := by
  refine ⟨(l.reverse.takeWhile pyIsSpace).reverse, ?_, ?_⟩
  · intro c hc
    exact List.mem_takeWhile_imp (List.mem_reverse.mp hc)
  · unfold pyRstrip
    rw [← List.reverse_append, List.takeWhile_append_dropWhile, List.reverse_reverse]

theorem pyStrip_decomp (l : List Char) :
    ∃ p q, (∀ c ∈ p, pyIsSpace c = true) ∧ (∀ c ∈ q, pyIsSpace c = true) ∧
      l = p ++ pyStrip l ++ q := by
  obtain ⟨q, hq, hdec⟩ := pyRstrip_decomp (pyLstrip l)
  refine ⟨l.takeWhile pyIsSpace, q, fun c hc => List.mem_takeWhile_imp hc, hq, ?_⟩
  conv_lhs => rw [← List.takeWhile_append_dropWhile pyIsSpace l]
  rw [List.append_assoc]
  exact congrArg _ hdec

theorem pyRstrip_idem (l : List Char) : pyRstrip (pyRstrip l) = pyRstrip l := by
  unfold pyRstrip
  rw [List.reverse_reverse, dropWhile_idem]

theorem pyLstrip_pyRstrip_pyLstrip (l : List Char) :
    pyLstrip (pyRstrip (pyLstrip l)) = pyRstrip (pyLstrip l) := by
  apply dropWhile_eq_self_of_head
  intro c hc
  obtain ⟨q, _, hdec⟩ := pyRstrip_decomp (pyLstrip l)
  have hhead : (pyLstrip l).head? = some c := by
    rw [hdec]
    cases hres : pyRstrip (pyLstrip l) with
    | nil => rw [hres] at hc; simp at hc
    | cons x xs =>
      rw [hres] at hc
      simp at hc
      simp [hc]
  exact head?_dropWhile_not pyIsSpace l hhead

theorem pyStrip_idem (l : List Char) : pyStrip (pyStrip l) = pyStrip l := by
  unfold pyStrip
  rw [pyLstrip_pyRstrip_pyLstrip, pyRstrip_idem]

/-! ### Stage A3: the two-character-substring tester `hasPair` -/

theorem hasPair_cons (a b x : Char) (w : List Char) :
    hasPair a b (x :: w) =
      ((decide (x = a) && decide (w.head? = some b)) || hasPair a b w) := by
  cases w with
  | nil => simp [hasPair]
  | cons y w' => simp [hasPair]

theorem hasPair_append (a b : Char) : ∀ (u v : List Char),
    hasPair a b (u ++ v) = true ↔
      hasPair a b u = true ∨ hasPair a b v = true ∨
        (u.getLast? = some a ∧ v.head? = some b) := by
  intro u
  induction u with
  | nil => intro v; simp [hasPair]
  | cons x u' ih =>
    intro v
    rw [List.cons_append]
    simp only [hasPair_cons, Bool.or_eq_true, Bool.and_eq_true, decide_eq_true_eq]
    rw [ih v]
    cases u' with
    | nil => simp; tauto
    | cons y u'' =>
      simp only [List.cons_append, List.head?_cons, List.getLast?_cons_cons]
      tauto

theorem hasPair_append_left {a b : Char} {u : List Char} (v : List Char)
    (h : hasPair a b u = true) : hasPair a b (u ++ v) = true :=
  (hasPair_append a b u v).mpr (Or.inl h)

theorem hasPair_append_right {a b : Char} (u : List Char) {v : List Char}
    (h : hasPair a b v = true) : hasPair a b (u ++ v) = true :=
  (hasPair_append a b u v).mpr (Or.inr (Or.inl h))

theorem hasPair_tail {a b x : Char} {w : List Char}
    (h : hasPair a b (x :: w) = false) : hasPair a b w = false := by
  rw [hasPair_cons] at h
  exact (Bool.or_eq_false_iff.mp h).2

theorem hasPair_mem {a b : Char} : ∀ {l : List Char}, hasPair a b l = true →
    a ∈ l ∧ b ∈ l := by
  intro l
  induction l with
  | nil => intro h; simp [hasPair] at h
  | cons x w ih =>
    intro h
    rw [hasPair_cons] at h
    rcases Bool.or_eq_true_iff.mp h with h | h
    · have := Bool.and_eq_true_iff.mp h
      have hx : x = a := of_decide_eq_true this.1
      have hh : w.head? = some b := of_decide_eq_true this.2
      exact ⟨by simp [hx], List.mem_cons.mpr (Or.inr (List.mem_of_mem_head? hh))⟩
    · have := ih h
      exact ⟨by simp [this.1], by simp [this.2]⟩

theorem hasPair_pyStrip_up {a b : Char} {l : List Char}
    (h : hasPair a b (pyStrip l) = true) : hasPair a b l = true := by
  obtain ⟨p, q, _, _, hdec⟩ := pyStrip_decomp l
  rw [hdec]
  exact hasPair_append_left q (hasPair_append_right p h)

theorem hasPair_pyStrip_down {a b : Char} {l : List Char}
    (ha : pyIsSpace a = false) (hb : pyIsSpace b = false)
    (h : hasPair a b l = true) : hasPair a b (pyStrip l) = true := by
  obtain ⟨p, q, hp, hq, hdec⟩ := pyStrip_decomp l
  rw [hdec] at h
  rcases (hasPair_append a b (p ++ pyStrip l) q).mp h with h | h | ⟨h1, h2⟩
  · rcases (hasPair_append a b p (pyStrip l)).mp h with h | h | ⟨h1, h2⟩
    · have := hp a (hasPair_mem h).1
      rw [ha] at this
      exact absurd this (by simp)
    · exact h
    · have := hp a (List.mem_of_mem_getLast? h1)
      rw [ha] at this
      exact absurd this (by simp)
  · have := hq a (hasPair_mem h).1
    rw [ha] at this
    exact absurd this (by simp)
  · have := hq b (List.mem_of_mem_head? h2)
    rw [hb] at this
    exact absurd this (by simp)

/-! ### Stage B: the `//`-removal pass -/

theorem rlc_true_cons {c : Char} {rest : List Char} (h : c ≠ '\n') :
    jsRemoveLineCommentsAux true (c :: rest) = jsRemoveLineCommentsAux true rest := by
  simp [jsRemoveLineCommentsAux, h]

theorem rlc_false_slashslash (rest : List Char) :
    jsRemoveLineCommentsAux false ('/' :: '/' :: rest) = jsRemoveLineCommentsAux true rest := by
  simp [jsRemoveLineCommentsAux]

theorem rlc_false_cons {c : Char} {rest : List Char}
    (h : ¬(c = '/' ∧ rest.head? = some '/')) :
    jsRemoveLineCommentsAux false (c :: rest) = c :: jsRemoveLineCommentsAux false rest := by
  cases rest with
  | nil => simp [jsRemoveLineCommentsAux]
  | cons d rest' =>
    have hcd : ¬(c = '/' ∧ d = '/') := fun hh => h ⟨hh.1, by simp [hh.2]⟩
    rcases eq_or_ne c '/' with rfl | hc
    · have hd : d ≠ '/' := fun hh => hcd ⟨rfl, hh⟩
      simp [jsRemoveLineCommentsAux, hd]
    · simp [jsRemoveLineCommentsAux, hc]

theorem rlc_true_head : ∀ (s : List Char),
    (jsRemoveLineCommentsAux true s).head? = none ∨
    (jsRemoveLineCommentsAux true s).head? = some '\n' := by
  intro s
  induction s with
  | nil => left; rfl
  | cons c rest ih =>
    by_cases hc : c = '\n'
    · subst hc
      right
      simp [jsRemoveLineCommentsAux]
    · rw [rlc_true_cons hc]
      exact ih

theorem rlc_false_head : ∀ (s : List Char),
    (jsRemoveLineCommentsAux false s).head? = none ∨
    (jsRemoveLineCommentsAux false s).head? = some '\n' ∨
    (jsRemoveLineCommentsAux false s).head? = s.head? := by
  intro s
  cases s with
  | nil => left; rfl
  | cons c rest =>
    by_cases hsl : c = '/' ∧ rest.head? = some '/'
    · obtain ⟨rfl, hr⟩ := hsl
      obtain ⟨rest', rfl⟩ : ∃ rest', rest = '/' :: rest' := by
        cases rest with
        | nil => simp at hr
        | cons d r => simp at hr; exact ⟨r, by rw [hr]⟩
      rw [rlc_false_slashslash]
      rcases rlc_true_head rest' with h | h
      · exact Or.inl h
      · exact Or.inr (Or.inl h)
    · rw [rlc_false_cons hsl]
      exact Or.inr (Or.inr rfl)

theorem rlc_no_double_slash : ∀ (mode : Bool) (s : List Char),
    hasPair '/' '/' (jsRemoveLineCommentsAux mode s) = false := by
  intro mode s
  induction mode, s using jsRemoveLineCommentsAux.induct with
  | case1 mode => cases mode <;> rfl
  | case2 rest ih =>
    rw [show jsRemoveLineCommentsAux true ('\n' :: rest) =
        '\n' :: jsRemoveLineCommentsAux false rest by simp [jsRemoveLineCommentsAux]]
    rw [hasPair_cons, ih]
    simp
  | case3 c rest hne ih =>
    rw [rlc_true_cons (fun h => hne h)]
    exact ih
  | case4 rest ih =>
    rw [rlc_false_slashslash]
    exact ih
  | case5 c rest hne ih =>
    have hguard : ¬(c = '/' ∧ rest.head? = some '/') := by
      rintro ⟨rfl, hr⟩
      cases rest with
      | nil => simp at hr
      | cons d r =>
        simp at hr
        exact hne r rfl (by rw [hr])
    rw [rlc_false_cons hguard, hasPair_cons, ih]
    rcases eq_or_ne c '/' with rfl | hc
    · have : (jsRemoveLineCommentsAux false rest).head? ≠ some '/' := by
        rcases rlc_false_head rest with h | h | h <;> rw [h]
        · simp
        · simp
        · intro hcontra
          exact hguard ⟨rfl, hcontra⟩
      simp [this]
    · simp [hc]

theorem rlc_id_of_no_pair : ∀ {s : List Char}, hasPair '/' '/' s = false →
    jsRemoveLineCommentsAux false s = s := by
  intro s
  induction s with
  | nil => intro _; rfl
  | cons c rest ih =>
    intro h
    have hguard : ¬(c = '/' ∧ rest.head? = some '/') := by
      rintro ⟨rfl, hr⟩
      rw [hasPair_cons] at h
      simp [hr] at h
    rw [rlc_false_cons hguard, ih (hasPair_tail h)]

/-! ### Stage C: the block-comment pass and `goodBlocks` -/

theorem hasPair_append_false_right {a b : Char} {u v : List Char}
    (h : hasPair a b (u ++ v) = false) : hasPair a b v = false := by
  by_contra hc
  rw [hasPair_append_right u (by revert hc; cases hasPair a b v <;> simp)] at h
  exact absurd h (by simp)

theorem hasPair_append_false_left {a b : Char} {u v : List Char}
    (h : hasPair a b (u ++ v) = false) : hasPair a b u = false := by
  by_contra hc
  rw [hasPair_append_left v (by revert hc; cases hasPair a b u <;> simp)] at h
  exact absurd h (by simp)

theorem rbc_false_open_close {rest : List Char} (h : hasPair '*' '/' rest = true) :
    jsRemoveBlockCommentsAux false ('/' :: '*' :: rest) = jsRemoveBlockCommentsAux true rest := by
  simp [jsRemoveBlockCommentsAux, h]

theorem rbc_false_open_noclose {rest : List Char} (h : hasPair '*' '/' rest = false) :
    jsRemoveBlockCommentsAux false ('/' :: '*' :: rest) = '/' :: '*' :: rest := by
  simp [jsRemoveBlockCommentsAux, h]

theorem rbc_false_cons {c : Char} {rest : List Char}
    (h : ¬(c = '/' ∧ rest.head? = some '*')) :
    jsRemoveBlockCommentsAux false (c :: rest) = c :: jsRemoveBlockCommentsAux false rest := by
  cases rest with
  | nil => simp [jsRemoveBlockCommentsAux]
  | cons d rest' =>
    rcases eq_or_ne c '/' with rfl | hc
    · have hd : d ≠ '*' := fun hh => h ⟨rfl, by simp [hh]⟩
      simp [jsRemoveBlockCommentsAux, hd]
    · simp [jsRemoveBlockCommentsAux, hc]

theorem rbc_true_close (rest : List Char) :
    jsRemoveBlockCommentsAux true ('*' :: '/' :: rest) = jsRemoveBlockCommentsAux false rest := by
  simp [jsRemoveBlockCommentsAux]

theorem rbc_true_cons {c : Char} {rest : List Char}
    (h : ¬(c = '*' ∧ rest.head? = some '/')) :
    jsRemoveBlockCommentsAux true (c :: rest) = jsRemoveBlockCommentsAux true rest := by
  cases rest with
  | nil => simp [jsRemoveBlockCommentsAux]
  | cons d rest' =>
    rcases eq_or_ne c '*' with rfl | hc
    · have hd : d ≠ '/' := fun hh => h ⟨rfl, by simp [hh]⟩
      simp [jsRemoveBlockCommentsAux, hd]
    · simp [jsRemoveBlockCommentsAux, hc]

theorem rbc_false_head {s : List Char} (h : s.head? ≠ some '/') :
    (jsRemoveBlockCommentsAux false s).head? = s.head? := by
  cases s with
  | nil => rfl
  | cons c rest =>
    have hc : c ≠ '/' := by simpa using h
    rw [rbc_false_cons (fun hh => hc hh.1)]
    rfl

theorem goodBlocks_open (rest : List Char) :
    goodBlocks ('/' :: '*' :: rest) = !hasPair '*' '/' rest := by
  simp [goodBlocks]

theorem goodBlocks_cons {c : Char} {w : List Char}
    (h : ¬(c = '/' ∧ w.head? = some '*')) :
    goodBlocks (c :: w) = goodBlocks w := by
  cases w with
  | nil => cases c; simp [goodBlocks]
  | cons d w' =>
    rcases eq_or_ne c '/' with rfl | hc
    · have hd : d ≠ '*' := fun hh => h ⟨rfl, by simp [hh]⟩
      simp [goodBlocks, hd]
    · simp [goodBlocks, hc]

/-- Predicate `goodBlocks` holds whenever the string has no close marker at all. -/
theorem goodBlocks_of_no_close : ∀ {s : List Char}, hasPair '*' '/' s = false →
    goodBlocks s = true := by
  intro s
  induction s using goodBlocks.induct with
  | case1 rest =>
    intro h
    rw [goodBlocks_open, hasPair_tail (hasPair_tail h)]
    rfl
  | case2 c rest hne ih =>
    intro h
    have hguard : ¬(c = '/' ∧ rest.head? = some '*') := by
      rintro ⟨rfl, hr⟩
      cases rest with
      | nil => simp at hr
      | cons d r => simp at hr; exact hne r rfl (by rw [hr])
    rw [goodBlocks_cons hguard]
    exact ih (hasPair_tail h)
  | case3 => intro _; rfl

/-- Predicate `goodBlocks` holds whenever the string has no open marker at all. -/
theorem goodBlocks_of_no_open : ∀ {s : List Char}, hasPair '/' '*' s = false →
    goodBlocks s = true := by
  intro s
  induction s using goodBlocks.induct with
  | case1 rest =>
    intro h
    rw [hasPair_cons] at h
    simp at h
  | case2 c rest hne ih =>
    intro h
    have hguard : ¬(c = '/' ∧ rest.head? = some '*') := by
      rintro ⟨rfl, hr⟩
      rw [hasPair_cons] at h
      simp [hr] at h
    rw [goodBlocks_cons hguard]
    exact ih (hasPair_tail h)
  | case3 => intro _; rfl

theorem rbc_no_double_slash : ∀ (mode : Bool) (s : List Char),
    hasPair '/' '/' s = false →
    hasPair '/' '/' (jsRemoveBlockCommentsAux mode s) = false := by
  intro mode s
  induction mode, s using jsRemoveBlockCommentsAux.induct with
  | case1 mode => intro _; cases mode <;> rfl
  | case2 rest hcl ih =>
    intro h
    rw [rbc_false_open_close hcl]
    exact ih (hasPair_tail (hasPair_tail h))
  | case3 rest hcl =>
    intro h
    rw [rbc_false_open_noclose (by simpa using hcl)]
    exact h
  | case4 rest ih =>
    intro h
    rw [rbc_true_close]
    exact ih (hasPair_tail (hasPair_tail h))
  | case5 c rest hne ih =>
    intro h
    have hguard : ¬(c = '*' ∧ rest.head? = some '/') := by
      rintro ⟨rfl, hr⟩
      cases rest with
      | nil => simp at hr
      | cons d r => simp at hr; exact hne r rfl (by rw [hr])
    rw [rbc_true_cons hguard]
    exact ih (hasPair_tail h)
  | case6 c rest hne ih =>
    intro h
    have hguard : ¬(c = '/' ∧ rest.head? = some '*') := by
      rintro ⟨rfl, hr⟩
      cases rest with
      | nil => simp at hr
      | cons d r => simp at hr; exact hne r rfl (by rw [hr])
    rw [rbc_false_cons hguard, hasPair_cons, ih (hasPair_tail h)]
    rcases eq_or_ne c '/' with rfl | hc
    · have hrh : rest.head? ≠ some '/' := by
        intro hr
        rw [hasPair_cons] at h
        simp [hr] at h
      have : (jsRemoveBlockCommentsAux false rest).head? ≠ some '/' := by
        cases rest with
        | nil => simp [jsRemoveBlockCommentsAux]
        | cons d r =>
          have hd : d ≠ '/' := by simpa using hrh
          rw [rbc_false_head (by simpa using hd)]
          simpa using hd
      simp [this]
    · simp [hc]

theorem rbc_goodBlocks : ∀ (mode : Bool) (s : List Char),
    hasPair '/' '/' s = false →
    goodBlocks (jsRemoveBlockCommentsAux mode s) = true := by
  intro mode s
  induction mode, s using jsRemoveBlockCommentsAux.induct with
  | case1 mode => intro _; cases mode <;> rfl
  | case2 rest hcl ih =>
    intro h
    rw [rbc_false_open_close hcl]
    exact ih (hasPair_tail (hasPair_tail h))
  | case3 rest hcl =>
    intro h
    rw [rbc_false_open_noclose (by simpa using hcl), goodBlocks_open]
    simp [Bool.not_eq_true' .. ▸ (by simpa using hcl : hasPair '*' '/' rest = false)]
  | case4 rest ih =>
    intro h
    rw [rbc_true_close]
    exact ih (hasPair_tail (hasPair_tail h))
  | case5 c rest hne ih =>
    intro h
    have hguard : ¬(c = '*' ∧ rest.head? = some '/') := by
      rintro ⟨rfl, hr⟩
      cases rest with
      | nil => simp at hr
      | cons d r => simp at hr; exact hne r rfl (by rw [hr])
    rw [rbc_true_cons hguard]
    exact ih (hasPair_tail h)
  | case6 c rest hne ih =>
    intro h
    have hguard : ¬(c = '/' ∧ rest.head? = some '*') := by
      rintro ⟨rfl, hr⟩
      cases rest with
      | nil => simp at hr
      | cons d r => simp at hr; exact hne r rfl (by rw [hr])
    rw [rbc_false_cons hguard]
    have hout : ¬(c = '/' ∧ (jsRemoveBlockCommentsAux false rest).head? = some '*') := by
      rintro ⟨rfl, hOut⟩
      have hrh : rest.head? ≠ some '/' := by
        intro hr
        rw [hasPair_cons] at h
        simp [hr] at h
      cases rest with
      | nil => simp [jsRemoveBlockCommentsAux] at hOut
      | cons d r =>
        have hd : d ≠ '/' := by simpa using hrh
        rw [rbc_false_head (by simpa using hd)] at hOut
        simp at hOut
        exact hguard ⟨rfl, by simp [hOut]⟩
    rw [goodBlocks_cons hout]
    exact ih (hasPair_tail h)

theorem rbc_id_of_goodBlocks : ∀ {s : List Char}, goodBlocks s = true →
    jsRemoveBlockCommentsAux false s = s := by
  intro s
  induction s using goodBlocks.induct with
  | case1 rest =>
    intro h
    rw [goodBlocks_open] at h
    exact rbc_false_open_noclose (by simpa using h)
  | case2 c rest hne ih =>
    intro h
    have hguard : ¬(c = '/' ∧ rest.head? = some '*') := by
      rintro ⟨rfl, hr⟩
      cases rest with
      | nil => simp at hr
      | cons d r => simp at hr; exact hne r rfl (by rw [hr])
    rw [rbc_false_cons hguard]
    rw [goodBlocks_cons hguard] at h
    rw [ih h]
  | case3 => intro _; rfl

/-! ### Stage D1: `goodBlocks` under append -/

theorem hasPair_cons_of (x : Char) {a b : Char} {w : List Char}
    (h : hasPair a b w = true) : hasPair a b (x :: w) = true := by
  rw [hasPair_cons]
  simp [h]

theorem hasPair_of_head {a b x : Char} {w : List Char} (hx : x = a)
    (hw : w.head? = some b) : hasPair a b (x :: w) = true := by
  rw [hasPair_cons]
  simp [hx, hw]

theorem hasPair_ne_nil {a b : Char} {l : List Char} (h : hasPair a b l = true) :
    l ≠ [] := by
  intro hl
  subst hl
  simp [hasPair] at h

theorem goodBlocks_singleton (c : Char) : goodBlocks [c] = true := by
  rw [goodBlocks_cons (by simp)]
  rfl

theorem goodBlocks_append_right : ∀ {u v : List Char},
    goodBlocks (u ++ v) = true → goodBlocks v = true := by
  intro u
  induction u with
  | nil => intro v h; exact h
  | cons c u' ih =>
    intro v h
    rw [List.cons_append] at h
    by_cases hop : c = '/' ∧ (u' ++ v).head? = some '*'
    · obtain ⟨rfl, hh⟩ := hop
      cases u' with
      | nil =>
        simp only [List.nil_append] at hh h
        obtain ⟨w, rfl⟩ : ∃ w, v = '*' :: w := by
          cases v with
          | nil => simp at hh
          | cons d w => simp at hh; exact ⟨w, by rw [hh]⟩
        rw [goodBlocks_open] at h
        rw [goodBlocks_cons (by simp)]
        exact goodBlocks_of_no_close (by simpa using h)
      | cons e u'' =>
        simp only [List.cons_append, List.head?_cons] at hh h
        obtain rfl : e = '*' := by simpa using hh
        rw [goodBlocks_open] at h
        have := hasPair_append_false_right (u := u'') (by simpa using h)
        exact goodBlocks_of_no_close this
    · rw [goodBlocks_cons hop] at h
      exact ih h

theorem goodBlocks_append_left : ∀ {u v : List Char},
    goodBlocks (u ++ v) = true → goodBlocks u = true := by
  intro u
  induction u with
  | nil => intro v _; rfl
  | cons c u' ih =>
    intro v h
    rw [List.cons_append] at h
    by_cases hop : c = '/' ∧ u'.head? = some '*'
    · obtain ⟨rfl, hh⟩ := hop
      obtain ⟨u'', rfl⟩ : ∃ u'', u' = '*' :: u'' := by
        cases u' with
        | nil => simp at hh
        | cons d w => simp at hh; exact ⟨w, by rw [hh]⟩
      rw [List.cons_append, goodBlocks_open] at h
      rw [goodBlocks_open]
      have := hasPair_append_false_left (v := v) (by simpa using h)
      simp [this]
    · cases u' with
      | nil => exact goodBlocks_singleton c
      | cons e u'' =>
        have hflat : ¬(c = '/' ∧ ((e :: u'') ++ v).head? = some '*') := by
          rintro ⟨rfl, hfh⟩
          simp at hfh
          exact hop ⟨rfl, by simp [hfh]⟩
        rw [goodBlocks_cons hflat] at h
        rw [goodBlocks_cons hop]
        exact ih h

theorem goodBlocks_split : ∀ {u v : List Char},
    goodBlocks (u ++ v) = true → hasPair '/' '*' u = true →
    hasPair '*' '/' v = false := by
  intro u
  induction u with
  | nil => intro v _ hpu; simp [hasPair] at hpu
  | cons c u' ih =>
    intro v h hpu
    rw [List.cons_append] at h
    by_cases hop : c = '/' ∧ u'.head? = some '*'
    · obtain ⟨rfl, hh⟩ := hop
      obtain ⟨u'', rfl⟩ : ∃ u'', u' = '*' :: u'' := by
        cases u' with
        | nil => simp at hh
        | cons d w => simp at hh; exact ⟨w, by rw [hh]⟩
      rw [List.cons_append, goodBlocks_open] at h
      exact hasPair_append_false_right (u := u'') (by simpa using h)
    · rw [hasPair_cons] at hpu
      have hpu' : hasPair '/' '*' u' = true := by
        rcases Bool.or_eq_true_iff.mp hpu with hh | hh
        · obtain ⟨h1, h2⟩ := Bool.and_eq_true_iff.mp hh
          exact absurd ⟨of_decide_eq_true h1, of_decide_eq_true h2⟩ hop
        · exact hh
      have hu'ne : u' ≠ [] := hasPair_ne_nil hpu'
      have hflat : ¬(c = '/' ∧ (u' ++ v).head? = some '*') := by
        rintro ⟨rfl, hfh⟩
        obtain ⟨e, u'', rfl⟩ := List.exists_cons_of_ne_nil hu'ne
        simp at hfh
        exact hop ⟨rfl, by simp [hfh]⟩
      rw [goodBlocks_cons hflat] at h
      exact ih h hpu'

/-! ### Stage D2: transport through `replaceCRLF` -/

theorem replaceAux_true_nl (rest : List Char) :
    replaceCRLFAux true ('\n' :: rest) = '\n' :: replaceCRLFAux false rest := by
  simp [replaceCRLFAux]

theorem replaceAux_true_cr (rest : List Char) :
    replaceCRLFAux true ('\r' :: rest) = '\r' :: replaceCRLFAux true rest := by
  simp [replaceCRLFAux]

theorem replaceAux_true_other {c : Char} (rest : List Char) (h1 : c ≠ '\n') (h2 : c ≠ '\r') :
    replaceCRLFAux true (c :: rest) = '\r' :: c :: replaceCRLFAux false rest := by
  simp [replaceCRLFAux, h1, h2]

theorem replaceAux_false_cr (rest : List Char) :
    replaceCRLFAux false ('\r' :: rest) = replaceCRLFAux true rest := by
  simp [replaceCRLFAux]

theorem replaceAux_false_other {c : Char} (rest : List Char) (h : c ≠ '\r') :
    replaceCRLFAux false (c :: rest) = c :: replaceCRLFAux false rest := by
  simp [replaceCRLFAux, h]

theorem replaceAux_head_true (s : List Char) :
    (replaceCRLFAux true s).head? = some '\r' ∨ (replaceCRLFAux true s).head? = some '\n' := by
  cases s with
  | nil => left; rfl
  | cons c rest =>
    by_cases h1 : c = '\n'
    · subst h1; rw [replaceAux_true_nl]; right; rfl
    · by_cases h2 : c = '\r'
      · subst h2; rw [replaceAux_true_cr]; left; rfl
      · rw [replaceAux_true_other rest h1 h2]; left; rfl

theorem replaceAux_head_false (s : List Char) :
    (replaceCRLFAux false s).head? = none ∨ (replaceCRLFAux false s).head? = some '\r' ∨
    (replaceCRLFAux false s).head? = some '\n' ∨
    (replaceCRLFAux false s).head? = s.head? := by
  cases s with
  | nil => left; rfl
  | cons c rest =>
    by_cases h : c = '\r'
    · subst h
      rw [replaceAux_false_cr]
      rcases replaceAux_head_true rest with hh | hh
      · exact Or.inr (Or.inl hh)
      · exact Or.inr (Or.inr (Or.inl hh))
    · rw [replaceAux_false_other rest h]
      exact Or.inr (Or.inr (Or.inr rfl))

theorem replaceAux_hasPair {a b : Char} (ha1 : a ≠ '\r') (ha2 : a ≠ '\n')
    (hb1 : b ≠ '\r') (hb2 : b ≠ '\n') : ∀ (pending : Bool) (s : List Char),
    hasPair a b (replaceCRLFAux pending s) = true → hasPair a b s = true := by
  intro pending s
  induction s generalizing pending with
  | nil =>
    intro h
    cases pending with
    | false => simp [replaceCRLFAux, hasPair] at h
    | true => simp [replaceCRLFAux, hasPair] at h
  | cons c rest ih =>
    intro h
    cases pending with
    | false =>
      by_cases hc : c = '\r'
      · subst hc
        rw [replaceAux_false_cr] at h
        exact hasPair_cons_of _ (ih true h)
      · rw [replaceAux_false_other rest hc, hasPair_cons] at h
        rcases Bool.or_eq_true_iff.mp h with h | h
        · obtain ⟨h1, h2⟩ := Bool.and_eq_true_iff.mp h
          have hhead := of_decide_eq_true h2
          rcases replaceAux_head_false rest with hh | hh | hh | hh <;> rw [hh] at hhead
          · simp at hhead
          · exact absurd (Option.some.injEq .. ▸ hhead) (by simpa using fun he => hb1 he.symm)
          · exact absurd (Option.some.injEq .. ▸ hhead) (by simpa using fun he => hb2 he.symm)
          · exact hasPair_of_head (of_decide_eq_true h1) hhead
        · exact hasPair_cons_of _ (ih false h)
    | true =>
      by_cases hn : c = '\n'
      · subst hn
        rw [replaceAux_true_nl, hasPair_cons] at h
        rcases Bool.or_eq_true_iff.mp h with h | h
        · obtain ⟨h1, _⟩ := Bool.and_eq_true_iff.mp h
          exact absurd (of_decide_eq_true h1).symm ha2
        · exact hasPair_cons_of _ (ih false h)
      · by_cases hr : c = '\r'
        · subst hr
          rw [replaceAux_true_cr, hasPair_cons] at h
          rcases Bool.or_eq_true_iff.mp h with h | h
          · obtain ⟨h1, _⟩ := Bool.and_eq_true_iff.mp h
            exact absurd (of_decide_eq_true h1).symm ha1
          · exact hasPair_cons_of _ (ih true h)
        · rw [replaceAux_true_other rest hn hr, hasPair_cons] at h
          rcases Bool.or_eq_true_iff.mp h with h | h
          · obtain ⟨h1, _⟩ := Bool.and_eq_true_iff.mp h
            exact absurd (of_decide_eq_true h1).symm ha1
          · rw [hasPair_cons] at h
            rcases Bool.or_eq_true_iff.mp h with h | h
            · obtain ⟨h1, h2⟩ := Bool.and_eq_true_iff.mp h
              have hhead := of_decide_eq_true h2
              rcases replaceAux_head_false rest with hh | hh | hh | hh <;> rw [hh] at hhead
              · simp at hhead
              · exact absurd (Option.some.injEq .. ▸ hhead) (by simpa using fun he => hb1 he.symm)
              · exact absurd (Option.some.injEq .. ▸ hhead) (by simpa using fun he => hb2 he.symm)
              · exact hasPair_of_head (of_decide_eq_true h1) hhead
            · exact hasPair_cons_of _ (ih false h)

theorem replaceAux_goodBlocks : ∀ (s : List Char) (pending : Bool),
    goodBlocks s = true → goodBlocks (replaceCRLFAux pending s) = true := by
  intro s
  induction s with
  | nil =>
    intro pending _
    cases pending with
    | false => rfl
    | true => decide
  | cons c rest ih =>
    intro pending h
    have hcore : goodBlocks (c :: replaceCRLFAux false rest) = true := by
      by_cases hop : c = '/' ∧ rest.head? = some '*'
      · obtain ⟨rfl, hh⟩ := hop
        obtain ⟨rest', rfl⟩ : ∃ rest', rest = '*' :: rest' := by
          cases rest with
          | nil => simp at hh
          | cons d w => simp at hh; exact ⟨w, by rw [hh]⟩
        rw [goodBlocks_open] at h
        rw [replaceAux_false_other rest' (by decide), goodBlocks_open]
        have hclose : hasPair '*' '/' rest' = false := by simpa using h
        cases hq : hasPair '*' '/' (replaceCRLFAux false rest') with
        | false => simp
        | true =>
          have := replaceAux_hasPair (by decide) (by decide) (by decide) (by decide)
            false rest' hq
          rw [this] at hclose
          exact absurd hclose (by simp)
      · have hguard : ¬(c = '/' ∧ (replaceCRLFAux false rest).head? = some '*') := by
          rintro ⟨rfl, hfh⟩
          rcases replaceAux_head_false rest with hh | hh | hh | hh <;> rw [hh] at hfh
          · simp at hfh
          · simp at hfh
          · simp at hfh
          · exact hop ⟨rfl, hfh⟩
        rw [goodBlocks_cons hguard]
        rw [goodBlocks_cons hop] at h
        exact ih false h
    cases pending with
    | true =>
      by_cases hn : c = '\n'
      · subst hn
        rw [replaceAux_true_nl, goodBlocks_cons (by simp)]
        rw [goodBlocks_cons (by simp)] at h
        exact ih false h
      · by_cases hr : c = '\r'
        · subst hr
          rw [replaceAux_true_cr, goodBlocks_cons (by simp)]
          rw [goodBlocks_cons (by simp)] at h
          exact ih true h
        · rw [replaceAux_true_other rest hn hr]
          have hguard : ¬('\r' = '/' ∧ (c :: replaceCRLFAux false rest).head? = some '*') := by
            simp
          rw [goodBlocks_cons hguard]
          exact hcore
    | false =>
      by_cases hr : c = '\r'
      · subst hr
        rw [replaceAux_false_cr]
        rw [goodBlocks_cons (by simp)] at h
        exact ih true h
      · rw [replaceAux_false_other rest hr]
        exact hcore

/-! ### Stage D3: transport through `splitlines` -/

theorem goodBlocks_tail {x : Char} {w : List Char} (h : goodBlocks (x :: w) = true) :
    goodBlocks w = true := by
  by_cases hop : x = '/' ∧ w.head? = some '*'
  · obtain ⟨rfl, hh⟩ := hop
    obtain ⟨w', rfl⟩ : ∃ w', w = '*' :: w' := by
      cases w with
      | nil => simp at hh
      | cons d w' => simp at hh; exact ⟨w', by rw [hh]⟩
    rw [goodBlocks_open] at h
    rw [goodBlocks_cons (by simp)]
    exact goodBlocks_of_no_close (by simpa using h)
  · rw [goodBlocks_cons hop] at h
    exact h

theorem splitlinesAux_hasPair {a b : Char} :
    ∀ (s acc m : List Char), m ∈ pySplitlinesAux acc s → hasPair a b m = true →
      hasPair a b (acc.reverse ++ s) = true := by
  intro s
  induction s with
  | nil =>
    intro acc m hm hp
    unfold pySplitlinesAux at hm
    split at hm
    · simp at hm
    · simp at hm
      subst hm
      rw [List.append_nil]
      exact hp
  | cons c rest ih =>
    intro acc m hm hp
    rw [pySplitlinesAux] at hm
    by_cases hb : isLineBreak c
    · rw [if_pos hb] at hm
      rcases List.mem_cons.mp hm with hm | hm
      · subst hm
        exact hasPair_append_left _ hp
      · have := ih [] m hm hp
        simp only [List.reverse_nil, List.nil_append] at this
        exact hasPair_append_right _ (hasPair_cons_of c this)
    · rw [if_neg hb] at hm
      have := ih (c :: acc) m hm hp
      simp only [List.reverse_cons, List.append_assoc, List.singleton_append] at this
      exact this

theorem gbLs_splitlinesAux :
    ∀ (s acc : List Char), goodBlocks (acc.reverse ++ s) = true →
      gbLs (pySplitlinesAux acc s) = true := by
  intro s
  induction s with
  | nil =>
    intro acc h
    rw [List.append_nil] at h
    simp only [pySplitlinesAux]
    split
    · rfl
    · simp [gbLs, h]
  | cons c rest ih =>
    intro acc h
    rw [pySplitlinesAux]
    by_cases hb : isLineBreak c
    · rw [if_pos hb]
      have hgacc : goodBlocks acc.reverse = true := goodBlocks_append_left h
      have hgrest : goodBlocks rest = true :=
        goodBlocks_tail (goodBlocks_append_right h)
      by_cases hp : hasPair '/' '*' acc.reverse = true
      · have hclose : hasPair '*' '/' (c :: rest) = false := goodBlocks_split h hp
        have hcrest : hasPair '*' '/' rest = false := hasPair_tail hclose
        have hany : (pySplitlinesAux [] rest).any (fun m => hasPair '*' '/' m) = false := by
          cases hq : (pySplitlinesAux [] rest).any (fun m => hasPair '*' '/' m) with
          | false => rfl
          | true =>
            obtain ⟨m, hm, hpm⟩ := List.any_eq_true.mp hq
            have := splitlinesAux_hasPair rest [] m hm hpm
            simp only [List.reverse_nil, List.nil_append] at this
            rw [this] at hcrest
            exact absurd hcrest (by simp)
        simp [gbLs, hp, hgacc, hany]
      · have : gbLs (acc.reverse :: pySplitlinesAux [] rest) =
            gbLs (pySplitlinesAux [] rest) := by
          simp [gbLs, hp]
        rw [this]
        exact ih [] (by simpa using hgrest)
    · rw [if_neg hb]
      apply ih (c :: acc)
      simp only [List.reverse_cons, List.append_assoc, List.singleton_append]
      exact h

theorem gbLs_splitlines {s : List Char} (h : goodBlocks s = true) :
    gbLs (pySplitlines s) = true := by
  unfold pySplitlines replaceCRLF
  exact gbLs_splitlinesAux _ [] (by simpa using replaceAux_goodBlocks s false h)

theorem splitlines_hasPair {a b : Char} (ha1 : a ≠ '\r') (ha2 : a ≠ '\n')
    (hb1 : b ≠ '\r') (hb2 : b ≠ '\n') {s m : List Char}
    (hm : m ∈ pySplitlines s) (hp : hasPair a b m = true) : hasPair a b s = true := by
  unfold pySplitlines replaceCRLF at hm
  have := splitlinesAux_hasPair _ [] m hm hp
  simp only [List.reverse_nil, List.nil_append] at this
  exact replaceAux_hasPair ha1 ha2 hb1 hb2 false s this

/-! ### Stage D4: transport through strip/filter normalisation and join -/

theorem goodBlocks_pyStrip {l : List Char} (h : goodBlocks l = true) :
    goodBlocks (pyStrip l) = true := by
  obtain ⟨p, q, _, _, hdec⟩ := pyStrip_decomp l
  rw [hdec] at h
  exact goodBlocks_append_right (goodBlocks_append_left h)

theorem gbLs_normalize : ∀ {L : List (List Char)}, gbLs L = true →
    gbLs ((L.map pyStrip).filter fun l => !l.isEmpty) = true := by
  intro L
  induction L with
  | nil => intro _; rfl
  | cons l L' ih =>
    intro h
    rw [List.map_cons, List.filter_cons]
    by_cases hp : hasPair '/' '*' l = true
    · have hd : hasPair '/' '*' (pyStrip l) = true :=
        hasPair_pyStrip_down (by decide) (by decide) hp
      have hne : (pyStrip l).isEmpty = false := by
        cases hq : pyStrip l with
        | nil => rw [hq] at hd; simp [hasPair] at hd
        | cons x xs => simp [hq]
      rw [if_pos (by simp [hne])]
      have hgl : goodBlocks l = true := by
        cases hgl : goodBlocks l with
        | true => rfl
        | false => simp [gbLs, hp, hgl] at h
      have hany : (L'.any fun m => hasPair '*' '/' m) = false := by
        cases hany : L'.any fun m => hasPair '*' '/' m with
        | false => rfl
        | true => simp [gbLs, hp, hany] at h
      have hany' : (((L'.map pyStrip).filter fun l => !l.isEmpty).any
          fun m => hasPair '*' '/' m) = false := by
        cases hq : ((L'.map pyStrip).filter fun l => !l.isEmpty).any
            fun m => hasPair '*' '/' m with
        | false => rfl
        | true =>
          obtain ⟨m, hm, hpm⟩ := List.any_eq_true.mp hq
          obtain ⟨l'', hl'', rfl⟩ := List.mem_map.mp (List.mem_of_mem_filter hm)
          have : (L'.any fun m => hasPair '*' '/' m) = true :=
            List.any_eq_true.mpr ⟨l'', hl'', hasPair_pyStrip_up hpm⟩
          rw [this] at hany
          exact absurd hany (by simp)
      simp [gbLs, hd, goodBlocks_pyStrip hgl, hany']
    · have ht : gbLs L' = true := by simpa [gbLs, hp] using h
      have hps : hasPair '/' '*' (pyStrip l) = false := by
        cases hq : hasPair '/' '*' (pyStrip l) with
        | false => rfl
        | true =>
          rw [hasPair_pyStrip_up hq] at hp
          exact absurd rfl hp
      split
      · simp only [gbLs, hps]
        exact ih ht
      · exact ih ht

theorem joinNL_singleton (l : List Char) : joinNL [l] = l := by
  simp [joinNL, List.intercalate]

theorem hasPair_joinNL {a b : Char} (ha : a ≠ '\n') (hb : b ≠ '\n') :
    ∀ {ls : List (List Char)}, hasPair a b (joinNL ls) = true →
      ∃ l ∈ ls, hasPair a b l = true := by
  intro ls
  induction ls with
  | nil => intro h; simp [joinNL, List.intercalate, hasPair] at h
  | cons l t ih =>
    intro h
    rcases eq_or_ne t [] with rfl | hne
    · rw [joinNL_singleton] at h
      exact ⟨l, by simp, h⟩
    · rw [joinNL_cons hne] at h
      rcases (hasPair_append a b l ('\n' :: joinNL t)).mp h with h | h | ⟨_, h2⟩
      · exact ⟨l, by simp, h⟩
      · rw [hasPair_cons] at h
        rcases Bool.or_eq_true_iff.mp h with h | h
        · exact absurd (of_decide_eq_true (Bool.and_eq_true_iff.mp h).1).symm ha
        · obtain ⟨l', hl', hp⟩ := ih h
          exact ⟨l', by simp [hl'], hp⟩
      · simp only [List.head?_cons, Option.some.injEq] at h2
        exact absurd h2.symm hb

theorem goodBlocks_append_nl_of_no_open {w : List Char} :
    ∀ {l : List Char}, hasPair '/' '*' l = false →
      goodBlocks (l ++ '\n' :: w) = goodBlocks w := by
  intro l
  induction l with
  | nil =>
    intro _
    rw [List.nil_append, goodBlocks_cons (by simp)]
  | cons c l' ih =>
    intro hp
    have hp' : hasPair '/' '*' l' = false := hasPair_tail hp
    rw [List.cons_append]
    have hguard : ¬(c = '/' ∧ (l' ++ '\n' :: w).head? = some '*') := by
      rintro ⟨rfl, hh⟩
      cases l' with
      | nil => simp at hh
      | cons e l'' =>
        simp only [List.cons_append, List.head?_cons, Option.some.injEq] at hh
        rw [hasPair_cons] at hp
        simp [hh] at hp
    rw [goodBlocks_cons hguard]
    exact ih hp'

theorem goodBlocks_append_nl_of_open {w : List Char} (hw : hasPair '*' '/' w = false) :
    ∀ {l : List Char}, goodBlocks l = true → hasPair '/' '*' l = true →
      goodBlocks (l ++ '\n' :: w) = true := by
  intro l
  induction l with
  | nil => intro _ hp; simp [hasPair] at hp
  | cons c l' ih =>
    intro hg hp
    by_cases hop : c = '/' ∧ l'.head? = some '*'
    · obtain ⟨rfl, hh⟩ := hop
      obtain ⟨l'', rfl⟩ : ∃ l'', l' = '*' :: l'' := by
        cases l' with
        | nil => simp at hh
        | cons d w' => simp at hh; exact ⟨w', by rw [hh]⟩
      rw [goodBlocks_open] at hg
      rw [List.cons_append, List.cons_append, goodBlocks_open]
      have h1 : hasPair '*' '/' l'' = false := by simpa using hg
      have : hasPair '*' '/' (l'' ++ '\n' :: w) = false := by
        cases hq : hasPair '*' '/' (l'' ++ '\n' :: w) with
        | false => rfl
        | true =>
          rcases (hasPair_append _ _ _ _).mp hq with h | h | ⟨_, h2⟩
          · rw [h] at h1; exact absurd h1 (by simp)
          · rw [hasPair_cons] at h
            rcases Bool.or_eq_true_iff.mp h with h | h
            · exact absurd (of_decide_eq_true (Bool.and_eq_true_iff.mp h).1) (by decide)
            · rw [h] at hw; exact absurd hw (by simp)
          · simp at h2
      simp [this]
    · rw [hasPair_cons] at hp
      have hp' : hasPair '/' '*' l' = true := by
        rcases Bool.or_eq_true_iff.mp hp with h | h
        · obtain ⟨h1, h2⟩ := Bool.and_eq_true_iff.mp h
          exact absurd ⟨of_decide_eq_true h1, of_decide_eq_true h2⟩ hop
        · exact h
      have hl'ne : l' ≠ [] := hasPair_ne_nil hp'
      have hg' : goodBlocks l' = true := by rw [goodBlocks_cons hop] at hg; exact hg
      rw [List.cons_append]
      have hguard : ¬(c = '/' ∧ (l' ++ '\n' :: w).head? = some '*') := by
        rintro ⟨rfl, hh⟩
        obtain ⟨e, l'', rfl⟩ := List.exists_cons_of_ne_nil hl'ne
        simp at hh
        exact hop ⟨rfl, by simp [hh]⟩
      rw [goodBlocks_cons hguard]
      exact ih hg' hp'

theorem goodBlocks_joinNL : ∀ {ls : List (List Char)}, gbLs ls = true →
    goodBlocks (joinNL ls) = true := by
  intro ls
  induction ls with
  | nil => intro _; decide
  | cons l t ih =>
    intro h
    rcases eq_or_ne t [] with rfl | hne
    · rw [joinNL_singleton]
      by_cases hp : hasPair '/' '*' l = true
      · cases hgl : goodBlocks l with
        | true => rfl
        | false => simp [gbLs, hp, hgl] at h
      · exact goodBlocks_of_no_open (by simpa using hp)
    · rw [joinNL_cons hne]
      by_cases hp : hasPair '/' '*' l = true
      · have hgl : goodBlocks l = true := by
          cases hgl : goodBlocks l with
          | true => rfl
          | false => simp [gbLs, hp, hgl] at h
        have hw : hasPair '*' '/' (joinNL t) = false := by
          cases hq : hasPair '*' '/' (joinNL t) with
          | false => rfl
          | true =>
            obtain ⟨m, hm, hpm⟩ := hasPair_joinNL (by decide) (by decide) hq
            have hany : (t.any fun m => hasPair '*' '/' m) = true :=
              List.any_eq_true.mpr ⟨m, hm, hpm⟩
            simp [gbLs, hp, hany] at h
        exact goodBlocks_append_nl_of_open hw hgl hp
      · rw [goodBlocks_append_nl_of_no_open (by simpa using hp)]
        exact ih (by simpa [gbLs, hp] using h)

/-! ### Stage E: assembling the idempotence of each `clean_content` -/

theorem map_eq_self_of {α : Type} (f : α → α) : ∀ {l : List α},
    (∀ x ∈ l, f x = x) → l.map f = l := by
  intro l
  induction l with
  | nil => intro _; rfl
  | cons x xs ih =>
    intro h
    rw [List.map_cons, h x (by simp), ih fun y hy => h y (by simp [hy])]

/-- A second pass of the strip-and-drop-empties normalisation changes
nothing: its output consists of break-free, already-stripped, non-empty
lines. -/
theorem jsNormalizeLines_idem (s : List Char) :
    jsNormalizeLines (jsNormalizeLines s) = jsNormalizeLines s := by
  unfold jsNormalizeLines
  have hmem : ∀ m ∈ ((pySplitlines s).map pyStrip).filter fun l => !l.isEmpty,
      m ∈ (pySplitlines s).map pyStrip ∧ (!m.isEmpty) = true := by
    intro m hm
    exact ⟨List.mem_of_mem_filter hm, (List.mem_filter.mp hm).2⟩
  have hnb : ∀ m ∈ ((pySplitlines s).map pyStrip).filter fun l => !l.isEmpty,
      ∀ c ∈ m, isLineBreak c = false := by
    intro m hm c hc
    obtain ⟨l, hl, rfl⟩ := List.mem_map.mp (hmem m hm).1
    exact splitlines_no_break hl c (mem_pyStrip hc)
  have hlast : (((pySplitlines s).map pyStrip).filter fun l => !l.isEmpty).getLast?
      ≠ some [] := by
    intro hc
    have := (hmem [] (List.mem_of_mem_getLast? hc)).2
    simp at this
  rw [splitlines_joinNL hnb hlast]
  have hstrip : (((pySplitlines s).map pyStrip).filter fun l => !l.isEmpty).map pyStrip
      = ((pySplitlines s).map pyStrip).filter fun l => !l.isEmpty := by
    apply map_eq_self_of
    intro m hm
    obtain ⟨l, hl, rfl⟩ := List.mem_map.mp (hmem m hm).1
    exact pyStrip_idem l
  rw [hstrip, List.filter_eq_self.mpr fun m hm => (hmem m hm).2]

theorem jsClean_idem (x : List Char) :
    jsCleanContent (jsCleanContent x) = jsCleanContent x := by
  have hw : hasPair '/' '/' (jsRemoveLineCommentsAux false x) = false :=
    rlc_no_double_slash false x
  have hy1 : hasPair '/' '/'
      (jsRemoveBlockCommentsAux false (jsRemoveLineCommentsAux false x)) = false :=
    rbc_no_double_slash false _ hw
  have hy2 : goodBlocks
      (jsRemoveBlockCommentsAux false (jsRemoveLineCommentsAux false x)) = true :=
    rbc_goodBlocks false _ hw
  have hz1 : hasPair '/' '/' (jsCleanContent x) = false := by
    cases hq : hasPair '/' '/' (jsCleanContent x) with
    | false => rfl
    | true =>
      have hq' : hasPair '/' '/' (joinNL
          (((pySplitlines (jsRemoveBlockCommentsAux false
            (jsRemoveLineCommentsAux false x))).map pyStrip).filter
              fun l => !l.isEmpty)) = true := hq
      obtain ⟨m, hm, hpm⟩ := hasPair_joinNL (by decide) (by decide) hq'
      obtain ⟨l, hl, rfl⟩ := List.mem_map.mp (List.mem_of_mem_filter hm)
      have h2 := splitlines_hasPair (by decide) (by decide) (by decide) (by decide)
        hl (hasPair_pyStrip_up hpm)
      rw [h2] at hy1
      exact absurd hy1 (by simp)
  have hz2 : goodBlocks (jsCleanContent x) = true := by
    show goodBlocks (joinNL
      (((pySplitlines (jsRemoveBlockCommentsAux false
        (jsRemoveLineCommentsAux false x))).map pyStrip).filter
          fun l => !l.isEmpty)) = true
    exact goodBlocks_joinNL (gbLs_normalize (gbLs_splitlines hy2))
  show jsNormalizeLines (jsRemoveBlockCommentsAux false
    (jsRemoveLineCommentsAux false (jsCleanContent x))) = jsCleanContent x
  rw [rlc_id_of_no_pair hz1, rbc_id_of_goodBlocks hz2]
  exact jsNormalizeLines_idem
    (jsRemoveBlockCommentsAux false (jsRemoveLineCommentsAux false x))

/-- Joining a filtered line list, re-splitting and re-filtering is the
identity, provided the filter rejects the empty line and the lines are
break-free. -/
theorem joinFilter_idem (P : List Char → Bool) (hP : P [] = false)
    (L : List (List Char)) (hnb : ∀ l ∈ L, ∀ c ∈ l, isLineBreak c = false) :
    joinNL ((pySplitlines (joinNL (L.filter P))).filter P) = joinNL (L.filter P) := by
  have hnb' : ∀ l ∈ L.filter P, ∀ c ∈ l, isLineBreak c = false :=
    fun l hl => hnb l (List.mem_of_mem_filter hl)
  have hlast : (L.filter P).getLast? ≠ some [] := by
    intro hc
    have := (List.mem_filter.mp (List.mem_of_mem_getLast? hc)).2
    rw [hP] at this
    exact absurd this (by simp)
  rw [splitlines_joinNL hnb' hlast,
    List.filter_eq_self.mpr fun m hm => (List.mem_filter.mp hm).2]

theorem pythonClean_idem (x : List Char) :
    pythonCleanContent (pythonCleanContent x) = pythonCleanContent x := by
  unfold pythonCleanContent
  exact joinFilter_idem _ (by decide) _ fun l hl => splitlines_no_break hl

theorem mem_replaceAux {c : Char} : ∀ (pending : Bool) (s : List Char),
    c ∈ replaceCRLFAux pending s → c ∈ s ∨ c = '\r' := by
  intro pending s
  induction s generalizing pending with
  | nil =>
    intro h
    cases pending with
    | false => simp [replaceCRLFAux] at h
    | true => simp [replaceCRLFAux] at h; exact Or.inr h
  | cons d rest ih =>
    intro h
    cases pending with
    | false =>
      by_cases hd : d = '\r'
      · subst hd
        rw [replaceAux_false_cr] at h
        rcases ih true h with h | h
        · exact Or.inl (by simp [h])
        · exact Or.inr h
      · rw [replaceAux_false_other rest hd] at h
        rcases List.mem_cons.mp h with h | h
        · exact Or.inl (by simp [h])
        · rcases ih false h with h | h
          · exact Or.inl (by simp [h])
          · exact Or.inr h
    | true =>
      by_cases hn : d = '\n'
      · subst hn
        rw [replaceAux_true_nl] at h
        rcases List.mem_cons.mp h with h | h
        · exact Or.inl (by simp [h])
        · rcases ih false h with h | h
          · exact Or.inl (by simp [h])
          · exact Or.inr h
      · by_cases hr : d = '\r'
        · subst hr
          rw [replaceAux_true_cr] at h
          rcases List.mem_cons.mp h with h | h
          · exact Or.inr h
          · rcases ih true h with h | h
            · exact Or.inl (by simp [h])
            · exact Or.inr h
        · rw [replaceAux_true_other rest hn hr] at h
          rcases List.mem_cons.mp h with h | h
          · exact Or.inr h
          · rcases List.mem_cons.mp h with h | h
            · exact Or.inl (by simp [h])
            · rcases ih false h with h | h
              · exact Or.inl (by simp [h])
              · exact Or.inr h

theorem mem_splitlinesAux {c : Char} : ∀ (s acc l : List Char),
    l ∈ pySplitlinesAux acc s → c ∈ l → c ∈ acc ∨ c ∈ s := by
  intro s
  induction s with
  | nil =>
    intro acc l hl hc
    unfold pySplitlinesAux at hl
    split at hl
    · simp at hl
    · simp at hl
      subst hl
      exact Or.inl (List.mem_reverse.mp hc)
  | cons d rest ih =>
    intro acc l hl hc
    rw [pySplitlinesAux] at hl
    by_cases hb : isLineBreak d
    · rw [if_pos hb] at hl
      rcases List.mem_cons.mp hl with hl | hl
      · subst hl
        exact Or.inl (List.mem_reverse.mp hc)
      · rcases ih [] l hl hc with h | h
        · simp at h
        · exact Or.inr (by simp [h])
    · rw [if_neg hb] at hl
      rcases ih (d :: acc) l hl hc with h | h
      · rcases List.mem_cons.mp h with h | h
        · exact Or.inr (by simp [h])
        · exact Or.inl h
      · exact Or.inr (by simp [h])

theorem mem_splitlines {c : Char} {s l : List Char} (hl : l ∈ pySplitlines s)
    (hc : c ∈ l) : c ∈ replaceCRLF s := by
  unfold pySplitlines at hl
  rcases mem_splitlinesAux _ [] l hl hc with h | h
  · simp at h
  · exact h

/-- The text cleaner produces a `'\n'`-join of lines that are break-free,
right-stripped, NUL-free, and have no leading or trailing blank lines. -/
theorem textClean_decomp (x : List Char) :
    ∃ ls : List (List Char),
      textCleanContent x = joinNL ls ∧
      (∀ l ∈ ls, ∀ c ∈ l, isLineBreak c = false) ∧
      (∀ l ∈ ls, pyRstrip l = l) ∧
      (∀ l ∈ ls, ∀ c ∈ l, c ≠ '\x00') ∧
      (ls.dropWhile (fun l => (pyStrip l).isEmpty) = ls) ∧
      (ls.reverse.dropWhile (fun l => (pyStrip l).isEmpty) = ls.reverse) := by
  set c1 : List Char := x.filter (· ≠ '\x00') with hc1
  set c2 : List Char := (replaceCRLF c1).map (fun c => if c = '\r' then '\n' else c)
    with hc2
  set lines : List (List Char) := (pySplitlines c2).map pyRstrip with hlines
  set l1 : List (List Char) := lines.dropWhile (fun l => (pyStrip l).isEmpty) with hl1
  set l2 : List (List Char) := (l1.reverse.dropWhile (fun l => (pyStrip l).isEmpty)).reverse
    with hl2
  have hmem : ∀ m ∈ l2, ∃ w ∈ pySplitlines c2, m = pyRstrip w := by
    intro m hm
    rw [hl2] at hm
    have h1 : m ∈ l1 :=
      List.mem_reverse.mp ((List.dropWhile_sublist _).mem (List.mem_reverse.mp hm))
    rw [hl1] at h1
    have h2 : m ∈ lines := (List.dropWhile_sublist _).mem h1
    rw [hlines] at h2
    obtain ⟨w, hw, hrw⟩ := List.mem_map.mp h2
    exact ⟨w, hw, hrw.symm⟩
  have hc2chars : ∀ c ∈ c2, c ≠ '\r' ∧ c ≠ '\x00' := by
    intro c hc
    rw [hc2] at hc
    obtain ⟨d, hd, rfl⟩ := List.mem_map.mp hc
    by_cases hdr : d = '\r'
    · subst hdr
      exact ⟨by decide, by decide⟩
    · rw [if_neg hdr]
      refine ⟨hdr, ?_⟩
      rcases mem_replaceAux false c1 hd with h | h
      · rw [hc1] at h
        simpa using (List.mem_filter.mp h).2
      · exact absurd h hdr
  have hsplit_c2 : replaceCRLF c2 = c2 :=
    replaceCRLF_of_no_cr fun c hc => (hc2chars c hc).1
  refine ⟨l2, ?_, ?_, ?_, ?_, ?_, ?_⟩
  · rw [hl2, hl1, hlines, hc2, hc1]
    rfl
  · intro l hl c hc
    obtain ⟨w, hw, rfl⟩ := hmem l hl
    exact splitlines_no_break hw c (mem_pyRstrip hc)
  · intro l hl
    obtain ⟨w, _, rfl⟩ := hmem l hl
    exact pyRstrip_idem w
  · intro l hl c hc
    obtain ⟨w, hw, rfl⟩ := hmem l hl
    have hcw : c ∈ replaceCRLF c2 := mem_splitlines hw (mem_pyRstrip hc)
    rw [hsplit_c2] at hcw
    exact (hc2chars c hcw).2
  · cases hl2c : l2 with
    | nil => rfl
    | cons m t =>
      have hdecomp : l1 = l2 ++ (l1.reverse.takeWhile (fun l => (pyStrip l).isEmpty)).reverse := by
        rw [hl2, ← List.reverse_append, List.takeWhile_append_dropWhile,
          List.reverse_reverse]
      have hl1head : l1.head? = some m := by
        rw [hdecomp, hl2c]
        simp
      rw [hl1] at hl1head
      have hqm := head?_dropWhile_not (fun l => (pyStrip l).isEmpty) lines hl1head
      apply dropWhile_eq_self_of_head
      intro m' hm'
      simp only [List.head?_cons, Option.some.injEq] at hm'
      rw [← hm']
      exact hqm
  · rw [hl2, List.reverse_reverse]
    exact dropWhile_idem _ _

theorem textClean_idem (x : List Char) :
    textCleanContent (textCleanContent x) = textCleanContent x := by
  obtain ⟨ls, hz, hnb, hrs, hnul, hdrop1, hdrop2⟩ := textClean_decomp x
  rw [hz]
  have hchars : ∀ c ∈ joinNL ls, c ≠ '\x00' ∧ c ≠ '\r' := by
    intro c hc
    rcases mem_joinNL hc with rfl | ⟨l, hl, hcl⟩
    · exact ⟨by decide, by decide⟩
    · refine ⟨hnul l hl c hcl, ?_⟩
      intro h
      subst h
      have := hnb l hl '\r' hcl
      simp [isLineBreak] at this
  have hlast : ls.getLast? ≠ some [] := by
    intro hc
    rw [← List.head?_reverse] at hc
    obtain ⟨t, ht⟩ : ∃ t, ls.reverse = [] :: t := by
      cases hrr : ls.reverse with
      | nil => rw [hrr] at hc; simp at hc
      | cons m t => rw [hrr] at hc; simp at hc; exact ⟨t, by rw [hc]⟩
    rw [ht, List.dropWhile_cons, if_pos (by decide)] at hdrop2
    have hlen := congrArg List.length hdrop2
    have hle : (List.dropWhile (fun l => (pyStrip l).isEmpty) t).length ≤ t.length :=
      (List.dropWhile_sublist _).length_le
    simp only [List.length_cons] at hlen
    omega
  unfold textCleanContent
  dsimp only
  rw [List.filter_eq_self.mpr fun c hc => decide_eq_true (hchars c hc).1]
  rw [replaceCRLF_of_no_cr fun c hc => (hchars c hc).2]
  rw [map_eq_self_of _ fun c hc => if_neg (hchars c hc).2]
  rw [splitlines_joinNL hnb hlast]
  rw [map_eq_self_of pyRstrip hrs]
  rw [hdrop1, hdrop2, List.reverse_reverse]

/-- C9: for every input string, the cleaning pass of each of the cited
analyzers (PythonHandler.clean_content, JavaScriptHandler.clean_content,
TextHandler.clean_content) is idempotent: cleaning a second time produces
exactly the output of the first pass. -/
theorem c9_clean_idempotent (x : List Char) :
    pythonCleanContent (pythonCleanContent x) = pythonCleanContent x ∧
    jsCleanContent (jsCleanContent x) = jsCleanContent x ∧
    textCleanContent (textCleanContent x) = textCleanContent x :=
  ⟨pythonClean_idem x, jsClean_idem x, textClean_idem x⟩

end Spec2Proof
